import Mathlib

/-!
# Verification of the `factorial` crate against its specification

Shallow embedding of the crate's code:

* `src/src/lib.rs` — the trait implementations `UnsignedFactorial`,
  `SignedFactorial`, `UnsignedDoubleFactorial`, `SignedDoubleFactorial`
  (iterative checked loops).  A fixed-width unsigned operand type `T` is
  modelled by its maximal representable value `max : ℕ`; Rust's
  `checked_mul` returns `None` exactly when the true product exceeds `max`.
  Signed types are modelled with an `Int` input (the loops only ever touch
  non-negative values).
* `src/build.rs` — the single-range prime-swing evaluator `prime_swing`
  (u128, all multiplications checked) and the naive factorial used to
  generate the tables.
* `src/examples/build.rs` — the banded prime-swing evaluator (three prime
  bands, a small-swing lookup table below 33).
* `src/src/array.rs` — the committed tables `SMALL_FACTORIAL` and
  `SMALL_PRIME_SWING`.

The external prime sieve (`primal_sieve::Sieve`) is modelled by filtering
`List.range` with an executable primality test; `sieve.primes_from(2)
.take_while(|x| *x < n)` becomes the ordered list of primes below `n`.
-/

/-- Executable primality test used to model the external prime sieve
(`primal_sieve::Sieve` enumerates exactly the primes). -/
def isPrime (p : ℕ) : Bool :=
  decide (2 ≤ p) && (List.range p).all fun d => decide (d < 2) || decide (p % d ≠ 0)

/-- The ordered list of primes strictly below `n`: the sieve enumeration
`sieve.primes_from(2).take_while(|x| *x < n)` from `src/build.rs`. -/
def sievePrimesBelow (n : ℕ) : List ℕ :=
  (List.range n).filter isPrime

/-- The ordered list of primes `≤ n` (a sieve covering `[2, n]`). -/
def sievePrimesUpTo (n : ℕ) : List ℕ :=
  (List.range (n + 1)).filter isPrime

/-- Rust `prime_range(sieve, lo, hi)` from `src/examples/build.rs`:
`sieve.primes_from(lo).take_while(|m| *m <= hi)`, i.e. the ordered primes
in `[lo, hi]`. -/
def primeRange (lo hi : ℕ) : List ℕ :=
  (sievePrimesUpTo hi).filter fun p => decide (lo ≤ p)

/-- Rust `checked_mul` for an unsigned type whose maximum value is `max`:
`None` exactly when the mathematical product overflows. -/
def checked_mul (max a b : ℕ) : Option ℕ :=
  if a * b ≤ max then some (a * b) else none

/-- The `while i <= *self` loop of `UnsignedFactorial::checked_factorial`
(src/src/lib.rs):  accumulates `acc * i` by checked multiplication
(`checked_mul` inlined: succeeds iff the product fits below `max`),
incrementing `i`, returning `None` on the first overflow. -/
def checked_factorial_loop (max n i acc : ℕ) : Option ℕ :=
  if _h : i ≤ n then
    if acc * i ≤ max then checked_factorial_loop max n (i + 1) (acc * i)
    else none
  else
    some acc
termination_by n + 1 - i
decreasing_by omega

/-- Rust `UnsignedFactorial::checked_factorial` (src/src/lib.rs): `acc = 1`,
`i = 2`, loop while `i ≤ n`. -/
def checked_factorial (max n : ℕ) : Option ℕ :=
  checked_factorial_loop max n 2 1

/-- The unchecked product `i * (i+1) * ⋯ * n` (value of the loop when no
multiplication overflows; `1` when `i > n`). -/
def run_prod (i n : ℕ) : ℕ :=
  if _h : i ≤ n then i * run_prod (i + 1) n else 1
termination_by n + 1 - i
decreasing_by omega

theorem run_prod_pos_aux (n : ℕ) : ∀ k i, n + 1 - i ≤ k → 1 ≤ i → 0 < run_prod i n := by
  intro k
  induction k with
  | zero => intro i hk _hi; rw [run_prod, dif_neg (by omega)]; exact Nat.one_pos
  | succ k ih =>
    intro i hk hi
    rw [run_prod]
    split
    · next h => exact Nat.mul_pos (by omega) (ih (i + 1) (by omega) (by omega))
    · exact Nat.one_pos

theorem run_prod_pos (i n : ℕ) (hi : 1 ≤ i) : 0 < run_prod i n :=
  run_prod_pos_aux n (n + 1 - i) i (Nat.le_refl _) hi

theorem run_prod_of_gt {i n : ℕ} (h : n < i) : run_prod i n = 1 := by
  rw [run_prod, dif_neg (by omega)]

theorem run_prod_of_le {i n : ℕ} (h : i ≤ n) :
    run_prod i n = i * run_prod (i + 1) n := by
  rw [run_prod, dif_pos h]

theorem factorial_mul_run_prod (n : ℕ) :
    ∀ k i, 1 ≤ i → i + k = n + 1 →
      (i - 1).factorial * run_prod i n = n.factorial := by
  intro k
  induction k with
  | zero =>
    intro i hi hik
    have : i = n + 1 := by omega
    subst this
    rw [run_prod_of_gt (by omega)]
    simp
  | succ k ih =>
    intro i hi hik
    rw [run_prod_of_le (by omega), ← Nat.mul_assoc]
    have h1 : (i - 1).factorial * i = i.factorial := by
      have : i = (i - 1) + 1 := by omega
      rw [this, Nat.factorial_succ, Nat.mul_comm]
      simp
    rw [h1]
    have h2 := ih (i + 1) (by omega) (by omega)
    simpa using h2

/-- The product `run_prod 2 n` is `n!`. -/
theorem run_prod_two (n : ℕ) : run_prod 2 n = n.factorial := by
  rcases n with _ | n
  · rw [run_prod_of_gt (by omega)]
    simp
  · rcases n with _ | n
    · rw [run_prod_of_gt (by omega)]
      simp
    · have h := factorial_mul_run_prod (n + 2) (n + 1) 2 (by omega) (by omega)
      simpa [Nat.factorial] using h

theorem checked_factorial_loop_le {max n : ℕ} :
    ∀ k i acc, n + 1 - i ≤ k → acc * run_prod i n ≤ max →
      checked_factorial_loop max n i acc = some (acc * run_prod i n) := by
  intro k
  induction k with
  | zero =>
    intro i acc hk h
    rw [checked_factorial_loop, dif_neg (by omega), run_prod_of_gt (by omega)]
    simp
  | succ k ih =>
    intro i acc hk h
    rw [checked_factorial_loop]
    by_cases hle : i ≤ n
    · rw [dif_pos hle]
      rw [run_prod_of_le hle] at h
      have hmul : acc * i ≤ max := by
        calc acc * i ≤ acc * i * run_prod (i + 1) n :=
              Nat.le_mul_of_pos_right _ (run_prod_pos _ _ (by omega))
          _ = acc * (i * run_prod (i + 1) n) := by ring
          _ ≤ max := h
      rw [if_pos hmul]
      have := ih (i + 1) (acc * i) (by omega) (by rw [Nat.mul_assoc]; exact h)
      rw [this, run_prod_of_le hle]
      ring_nf
    · rw [dif_neg hle, run_prod_of_gt (by omega)]
      simp

theorem checked_factorial_loop_none {max n : ℕ} :
    ∀ k i acc, n + 1 - i ≤ k → acc ≤ max → max < acc * run_prod i n →
      checked_factorial_loop max n i acc = none := by
  intro k
  induction k with
  | zero =>
    intro i acc hk hacc h
    rw [run_prod_of_gt (by omega)] at h
    omega
  | succ k ih =>
    intro i acc hk hacc h
    by_cases hle : i ≤ n
    · rw [checked_factorial_loop, dif_pos hle]
      rw [run_prod_of_le hle] at h
      by_cases hmul : acc * i ≤ max
      · rw [if_pos hmul]
        exact ih (i + 1) (acc * i) (by omega) hmul
          (by rw [Nat.mul_assoc]; exact h)
      · rw [if_neg hmul]
    · rw [run_prod_of_gt (by omega)] at h
      omega

/-- Full characterisation of the checked factorial loop entry point. -/
theorem checked_factorial_eq (max n : ℕ) (hmax : 1 ≤ max) :
    checked_factorial max n =
      if n.factorial ≤ max then some n.factorial else none := by
  unfold checked_factorial
  have hrp := run_prod_two n
  by_cases h : n.factorial ≤ max
  · rw [if_pos h]
    have := @checked_factorial_loop_le max n (n + 1 - 2) 2 1
      (by omega) (by rw [Nat.one_mul, hrp]; exact h)
    rw [this, Nat.one_mul, hrp]
  · rw [if_neg h]
    exact checked_factorial_loop_none (n + 1 - 2) 2 1 (by omega) hmax
      (by rw [Nat.one_mul, hrp]; omega)

/-- C1: For every unsigned integer `n` of a type `T` with checked
multiplication (modelled by its maximal value `max ≥ 1`),
`checked_factorial(n)` returns `Some(n!)` exactly when `n! = 1·2·…·n` is
representable in `T` (i.e. `n! ≤ max`) and `None` otherwise. -/
theorem checked_factorial_correct (max n : ℕ) (hmax : 1 ≤ max) :
    checked_factorial max n =
      if n.factorial ≤ max then some n.factorial else none :=
  checked_factorial_eq max n hmax

/-- Witness for C1 at the 32-bit unsigned boundary: `factorial(0) = 1`,
`factorial(1) = 1`, `factorial(2) = 2`, `checked_factorial(12) =
Some(479001600)` and `checked_factorial(13) = None` for `max = 2^32 - 1`. -/
theorem checked_factorial_correct_witness :
    checked_factorial 4294967295 0 = some 1 ∧
    checked_factorial 4294967295 1 = some 1 ∧
    checked_factorial 4294967295 2 = some 2 ∧
    checked_factorial 4294967295 12 = some 479001600 ∧
    checked_factorial 4294967295 13 = none := by
  refine ⟨?_, ?_, ?_, ?_, ?_⟩
  · rw [checked_factorial_correct 4294967295 0 (by decide)]
    decide
  · rw [checked_factorial_correct 4294967295 1 (by decide)]
    decide
  · rw [checked_factorial_correct 4294967295 2 (by decide)]
    decide
  · rw [checked_factorial_correct 4294967295 12 (by decide)]
    decide
  · rw [checked_factorial_correct 4294967295 13 (by decide)]
    decide

/-- The `while i <= *self` loop of
`UnsignedDoubleFactorial::checked_double_factorial` (src/src/lib.rs):
checked multiplication, stepping `i` by two. -/
def checked_double_factorial_loop (max n i acc : ℕ) : Option ℕ :=
  if _h : i ≤ n then
    if acc * i ≤ max then checked_double_factorial_loop max n (i + 2) (acc * i)
    else none
  else
    some acc
termination_by n + 1 - i
decreasing_by omega

/-- Rust `UnsignedDoubleFactorial::checked_double_factorial` (src/src/lib.rs):
`acc = 1`, `i = 2` if `n` is even else `1`, loop while `i ≤ n` stepping by
two. -/
def checked_double_factorial (max n : ℕ) : Option ℕ :=
  checked_double_factorial_loop max n (if n % 2 = 0 then 2 else 1) 1

/-- The unchecked product `i * (i+2) * ⋯` of values `≤ n` in steps of two. -/
def run_prod2 (i n : ℕ) : ℕ :=
  if _h : i ≤ n then i * run_prod2 (i + 2) n else 1
termination_by n + 1 - i
decreasing_by omega

/-- The mathematical double factorial `n‼`. -/
def doubleFact : ℕ → ℕ
  | 0 => 1
  | 1 => 1
  | n + 2 => (n + 2) * doubleFact n

theorem run_prod2_of_gt {i n : ℕ} (h : n < i) : run_prod2 i n = 1 := by
  rw [run_prod2, dif_neg (by omega)]

theorem run_prod2_of_le {i n : ℕ} (h : i ≤ n) :
    run_prod2 i n = i * run_prod2 (i + 2) n := by
  rw [run_prod2, dif_pos h]

theorem run_prod2_pos_aux (n : ℕ) :
    ∀ k i, n + 1 - i ≤ k → 1 ≤ i → 0 < run_prod2 i n := by
  intro k
  induction k with
  | zero => intro i hk _hi; rw [run_prod2_of_gt (by omega)]; exact Nat.one_pos
  | succ k ih =>
    intro i hk hi
    by_cases h : i ≤ n
    · rw [run_prod2_of_le h]
      exact Nat.mul_pos (by omega) (ih (i + 2) (by omega) (by omega))
    · rw [run_prod2_of_gt (by omega)]; exact Nat.one_pos

theorem run_prod2_pos (i n : ℕ) (hi : 1 ≤ i) : 0 < run_prod2 i n :=
  run_prod2_pos_aux n (n + 1 - i) i (Nat.le_refl _) hi

theorem run_prod2_extend (n : ℕ) :
    ∀ k i, 1 ≤ i → i + 2 * k = n + 2 →
      run_prod2 i (n + 2) = run_prod2 i n * (n + 2) := by
  intro k
  induction k with
  | zero =>
    intro i _hi hik
    have : i = n + 2 := by omega
    subst this
    rw [run_prod2_of_le (by omega), run_prod2_of_gt (by omega),
      run_prod2_of_gt (by omega)]
    ring
  | succ k ih =>
    intro i hi hik
    have h1 : i ≤ n + 2 := by omega
    have h2 : i ≤ n := by omega
    rw [run_prod2_of_le h1, ih (i + 2) (by omega) (by omega),
      run_prod2_of_le h2]
    ring

/-- The double-factorial accumulation starting at `2` (n even) or `1`
(n odd) computes `n‼`. -/
theorem doubleFact_eq_run_prod2 :
    ∀ n, doubleFact n = run_prod2 (if n % 2 = 0 then 2 else 1) n := by
  intro n
  induction n using Nat.strong_induction_on with
  | _ n ih =>
    match n with
    | 0 => rw [doubleFact]; rw [if_pos (by omega), run_prod2_of_gt (by omega)]
    | 1 =>
      rw [doubleFact]
      rw [if_neg (by omega), run_prod2_of_le (by omega),
        run_prod2_of_gt (by omega)]
    | n + 2 =>
      have hpar : (n + 2) % 2 = n % 2 := by omega
      rw [doubleFact, ih n (by omega), hpar]
      by_cases h : n % 2 = 0
      · rw [if_pos h, run_prod2_extend n ((n + 2 - 2) / 2) 2 (by omega)
          (by omega)]
        ring
      · rw [if_neg h, run_prod2_extend n ((n + 2 - 1) / 2) 1 (by omega)
          (by omega)]
        ring

theorem checked_double_factorial_loop_le {max n : ℕ} :
    ∀ k i acc, n + 1 - i ≤ k → acc * run_prod2 i n ≤ max →
      checked_double_factorial_loop max n i acc =
        some (acc * run_prod2 i n) := by
  intro k
  induction k with
  | zero =>
    intro i acc hk h
    rw [checked_double_factorial_loop, dif_neg (by omega),
      run_prod2_of_gt (by omega)]
    simp
  | succ k ih =>
    intro i acc hk h
    rw [checked_double_factorial_loop]
    by_cases hle : i ≤ n
    · rw [dif_pos hle]
      rw [run_prod2_of_le hle] at h
      have hmul : acc * i ≤ max := by
        calc acc * i ≤ acc * i * run_prod2 (i + 2) n :=
              Nat.le_mul_of_pos_right _ (run_prod2_pos _ _ (by omega))
          _ = acc * (i * run_prod2 (i + 2) n) := by ring
          _ ≤ max := h
      rw [if_pos hmul]
      have := ih (i + 2) (acc * i) (by omega) (by rw [Nat.mul_assoc]; exact h)
      rw [this, run_prod2_of_le hle]
      ring_nf
    · rw [dif_neg hle, run_prod2_of_gt (by omega)]
      simp

theorem checked_double_factorial_loop_none {max n : ℕ} :
    ∀ k i acc, n + 1 - i ≤ k → acc ≤ max → max < acc * run_prod2 i n →
      checked_double_factorial_loop max n i acc = none := by
  intro k
  induction k with
  | zero =>
    intro i acc hk hacc h
    rw [run_prod2_of_gt (by omega)] at h
    omega
  | succ k ih =>
    intro i acc hk hacc h
    by_cases hle : i ≤ n
    · rw [checked_double_factorial_loop, dif_pos hle]
      rw [run_prod2_of_le hle] at h
      by_cases hmul : acc * i ≤ max
      · rw [if_pos hmul]
        exact ih (i + 2) (acc * i) (by omega) hmul
          (by rw [Nat.mul_assoc]; exact h)
      · rw [if_neg hmul]
    · rw [run_prod2_of_gt (by omega)] at h
      omega

/-- Full characterisation of the checked double-factorial entry point. -/
theorem checked_double_factorial_eq (max n : ℕ) (hmax : 1 ≤ max) :
    checked_double_factorial max n =
      if doubleFact n ≤ max then some (doubleFact n) else none := by
  unfold checked_double_factorial
  have hdf := doubleFact_eq_run_prod2 n
  by_cases h : doubleFact n ≤ max
  · rw [if_pos h]
    have := @checked_double_factorial_loop_le max n
      (n + 1 - (if n % 2 = 0 then 2 else 1)) (if n % 2 = 0 then 2 else 1) 1
      (by omega) (by rw [Nat.one_mul, ← hdf]; exact h)
    rw [this, Nat.one_mul, ← hdf]
  · rw [if_neg h]
    exact checked_double_factorial_loop_none
      (n + 1 - (if n % 2 = 0 then 2 else 1)) (if n % 2 = 0 then 2 else 1) 1
      (by omega) hmax (by rw [Nat.one_mul, ← hdf]; omega)

/-- C7: `checked_double_factorial(n)` performs the linear accumulation
(accumulator `1`, start index `2` for even `n`, `1` for odd `n`, stepping
by two up to and including `n`, checked multiplication throughout): it
returns `Some(n‼)` exactly when the double factorial is representable
(`≤ max`) and `None` on overflow. -/
theorem checked_double_factorial_correct (max n : ℕ) (hmax : 1 ≤ max) :
    checked_double_factorial max n =
      if doubleFact n ≤ max then some (doubleFact n) else none :=
  checked_double_factorial_eq max n hmax

/-- Witness for C7: `double_factorial(0) = 1`, `double_factorial(7) = 105`,
`double_factorial(10) = 3840` at `max = 2^32 - 1`, and overflow for
`n = 100`. -/
theorem checked_double_factorial_correct_witness :
    checked_double_factorial 4294967295 0 = some 1 ∧
    checked_double_factorial 4294967295 7 = some 105 ∧
    checked_double_factorial 4294967295 10 = some 3840 ∧
    checked_double_factorial 4294967295 100 = none := by
  refine ⟨?_, ?_, ?_, ?_⟩
  · rw [checked_double_factorial_correct 4294967295 0 (by decide)]
    decide
  · rw [checked_double_factorial_correct 4294967295 7 (by decide)]
    decide
  · rw [checked_double_factorial_correct 4294967295 10 (by decide)]
    decide
  · rw [checked_double_factorial_correct 4294967295 100 (by decide)]
    decide

/-- Rust `UnsignedFactorial::factorial` (src/src/lib.rs):
`self.checked_factorial().expect("Overflow computing factorial")`.  The
panicking entry point is modelled as `Except`, the panic as `error` with
the panic message. -/
def factorial_expect (max n : ℕ) : Except String ℕ :=
  match checked_factorial max n with
  | some v => Except.ok v
  | none => Except.error "Overflow computing factorial"

/-- Rust `UnsignedDoubleFactorial::double_factorial` (src/src/lib.rs):
`self.checked_double_factorial().expect("Overflow computing double
factorial")`. -/
def double_factorial_expect (max n : ℕ) : Except String ℕ :=
  match checked_double_factorial max n with
  | some v => Except.ok v
  | none => Except.error "Overflow computing double factorial"

/-- C8: the unchecked entry points return the checked value when it exists
and otherwise stop fatally with the fixed messages "Overflow computing
factorial" / "Overflow computing double factorial", which are distinct. -/
theorem factorial_expect_messages (max n : ℕ) (hmax : 1 ≤ max) :
    factorial_expect max n =
      (if n.factorial ≤ max then Except.ok n.factorial
       else Except.error "Overflow computing factorial") ∧
    double_factorial_expect max n =
      (if doubleFact n ≤ max then Except.ok (doubleFact n)
       else Except.error "Overflow computing double factorial") ∧
    "Overflow computing factorial" ≠ "Overflow computing double factorial" := by
  refine ⟨?_, ?_, by decide⟩
  · rw [factorial_expect, checked_factorial_eq max n hmax]
    by_cases h : n.factorial ≤ max
    · rw [if_pos h, if_pos h]
    · rw [if_neg h, if_neg h]
  · rw [double_factorial_expect, checked_double_factorial_eq max n hmax]
    by_cases h : doubleFact n ≤ max
    · rw [if_pos h, if_pos h]
    · rw [if_neg h, if_neg h]

/-- Witness for C8 at `max = 2^32 - 1`: `n = 10` returns the values,
`n = 100` stops with the two distinct messages. -/
theorem factorial_expect_messages_witness :
    factorial_expect 4294967295 10 = Except.ok 3628800 ∧
    factorial_expect 4294967295 100 =
      Except.error "Overflow computing factorial" ∧
    double_factorial_expect 4294967295 100 =
      Except.error "Overflow computing double factorial" := by
  have h10 := factorial_expect_messages 4294967295 10 (by decide)
  have h100 := factorial_expect_messages 4294967295 100 (by decide)
  refine ⟨?_, ?_, ?_⟩
  · rw [h10.1, if_pos (by decide)]
    rfl
  · rw [h100.1, if_neg (by decide)]
  · rw [h100.2.1, if_neg (by decide)]

/-- Rust `SignedFactorial::checked_factorial` (src/src/lib.rs): a negative
input returns `None` immediately; for `n ≥ 0` the loop is the same
checked accumulation as the unsigned implementation (every value it
touches is non-negative), so it is modelled by the unsigned loop on
`n.toNat`, with `max` the largest representable value of the signed type. -/
def signed_checked_factorial (max : ℕ) (n : ℤ) : Option ℤ :=
  if n < 0 then none
  else (checked_factorial max n.toNat).map Int.ofNat

/-- Rust `SignedDoubleFactorial::checked_double_factorial` (src/src/lib.rs):
negative inputs return `None` (the code comments that `(-1)‼` and `(-3)‼`
would be representable "but we choose not to"). -/
def signed_checked_double_factorial (max : ℕ) (n : ℤ) : Option ℤ :=
  if n < 0 then none
  else (checked_double_factorial max n.toNat).map Int.ofNat

/-- Rust `SignedFactorial::factorial` (src/src/lib.rs). -/
def signed_factorial_expect (max : ℕ) (n : ℤ) : Except String ℤ :=
  match signed_checked_factorial max n with
  | some v => Except.ok v
  | none => Except.error "Overflow computing factorial"

/-- Rust `SignedDoubleFactorial::double_factorial` (src/src/lib.rs). -/
def signed_double_factorial_expect (max : ℕ) (n : ℤ) : Except String ℤ :=
  match signed_checked_double_factorial max n with
  | some v => Except.ok v
  | none => Except.error "Overflow computing double factorial"

/-- C9: for every negative signed input the checked factorial and checked
double factorial return `None` — even where the mathematical double
factorial would be representable — and the unchecked variants therefore
stop fatally. -/
theorem signed_negative_returns_none (max : ℕ) (n : ℤ) (hn : n < 0) :
    signed_checked_factorial max n = none ∧
    signed_checked_double_factorial max n = none ∧
    signed_factorial_expect max n =
      Except.error "Overflow computing factorial" ∧
    signed_double_factorial_expect max n =
      Except.error "Overflow computing double factorial" := by
  have h1 : signed_checked_factorial max n = none := by
    rw [signed_checked_factorial, if_pos hn]
  have h2 : signed_checked_double_factorial max n = none := by
    rw [signed_checked_double_factorial, if_pos hn]
  refine ⟨h1, h2, ?_, ?_⟩
  · rw [signed_factorial_expect, h1]
  · rw [signed_double_factorial_expect, h2]

/-- Witness for C9 at the 32-bit signed maximum, inputs `-1` and `-3`. -/
theorem signed_negative_returns_none_witness :
    signed_checked_factorial 2147483647 (-1) = none ∧
    signed_checked_double_factorial 2147483647 (-1) = none ∧
    signed_checked_double_factorial 2147483647 (-3) = none ∧
    signed_double_factorial_expect 2147483647 (-3) =
      Except.error "Overflow computing double factorial" :=
  ⟨(signed_negative_returns_none 2147483647 (-1) (by decide)).1,
   (signed_negative_returns_none 2147483647 (-1) (by decide)).2.1,
   (signed_negative_returns_none 2147483647 (-3) (by decide)).2.1,
   (signed_negative_returns_none 2147483647 (-3) (by decide)).2.2.2⟩

theorem isPrime_iff (p : ℕ) : isPrime p = true ↔ p.Prime := by
  rw [isPrime, Nat.prime_def_lt]
  simp only [Bool.and_eq_true, List.all_eq_true, List.mem_range,
    Bool.or_eq_true, decide_eq_true_eq]
  constructor
  · rintro ⟨h2, hall⟩
    refine ⟨h2, fun m hm hdvd => ?_⟩
    rcases hall m hm with hlt | hmod
    · match m, hlt with
      | 0, _ =>
        have : p = 0 := Nat.eq_zero_of_zero_dvd hdvd
        omega
      | 1, _ => rfl
    · exact absurd (Nat.mod_eq_zero_of_dvd hdvd) hmod
  · rintro ⟨h2, hall⟩
    refine ⟨h2, fun m hm => ?_⟩
    by_cases hm2 : m < 2
    · exact Or.inl hm2
    · refine Or.inr fun hmod => ?_
      have hdvd : m ∣ p := Nat.dvd_of_mod_eq_zero hmod
      have := hall m hm hdvd
      omega

/-- Bridge between list-level filtered products (the sieve model) and
`Finset` products over the primes. -/
theorem filter_range_map_prod (f : ℕ → ℕ) (b : ℕ → Bool) (P : ℕ → Prop)
    [DecidablePred P] (hbP : ∀ x, b x = true ↔ P x) :
    ∀ m, (((List.range m).filter b).map f).prod =
      ∏ p ∈ (Finset.range m).filter P, f p := by
  intro m
  induction m with
  | zero => simp
  | succ m ih =>
    rw [List.range_succ, List.filter_append, List.map_append, List.prod_append,
      Finset.range_succ, Finset.filter_insert]
    by_cases h : P m
    · rw [if_pos h, Finset.prod_insert (by simp), ← ih]
      have hb : b m = true := (hbP m).mpr h
      simp [List.filter_cons, hb, Nat.mul_comm]
    · rw [if_neg h, ← ih]
      have hb : b m ≠ true := fun hc => h ((hbP m).mp hc)
      simp [List.filter_cons, hb]

theorem sievePrimesBelow_prod (f : ℕ → ℕ) (n : ℕ) :
    ((sievePrimesBelow n).map f).prod =
      ∏ p ∈ (Finset.range n).filter Nat.Prime, f p :=
  filter_range_map_prod f isPrime Nat.Prime isPrime_iff n

theorem primeRange_prod (f : ℕ → ℕ) (lo hi : ℕ) :
    ((primeRange lo hi).map f).prod =
      ∏ p ∈ (Finset.Icc lo hi).filter Nat.Prime, f p := by
  rw [primeRange, sievePrimesUpTo, List.filter_filter]
  rw [filter_range_map_prod f _ (fun p => p.Prime ∧ lo ≤ p)
    (by intro x; simp [isPrime_iff, and_comm]) (hi + 1)]
  apply Finset.prod_congr _ fun x _ => rfl
  ext x
  simp only [Finset.mem_filter, Finset.mem_range, Finset.mem_Icc]
  constructor
  · rintro ⟨hr, hp', hlo⟩
    exact ⟨⟨hlo, by omega⟩, hp'⟩
  · rintro ⟨⟨hlo, hle⟩, hp'⟩
    exact ⟨by omega, hp', hlo⟩

/-- The exponent accumulated by the per-prime `while q != 0` loop of
`prime_swing` (src/build.rs): the number of indices `i ≥ 1` for which the
quotient `⌊q / prime^i⌋` is odd (all such indices lie below `q + 1`). -/
def oddCount (prime q : ℕ) : ℕ :=
  ∑ i ∈ Finset.Ico 1 (q + 1), q / prime ^ i % 2

theorem oddCount_eq_sum {prime q : ℕ} (hp : 2 ≤ prime) {b : ℕ}
    (hb : q + 1 ≤ b) :
    oddCount prime q = ∑ i ∈ Finset.Ico 1 b, q / prime ^ i % 2 := by
  rw [oddCount]
  apply Finset.sum_subset
  · apply Finset.Ico_subset_Ico (Nat.le_refl _) hb
  · intro i hi hni
    simp only [Finset.mem_Ico] at hi hni
    have hq : q < prime ^ i := by
      calc q < 2 ^ q := Nat.lt_two_pow q
        _ ≤ 2 ^ i := Nat.pow_le_pow_right (by omega) (by omega)
        _ ≤ prime ^ i := Nat.pow_le_pow_left hp i
    simp [Nat.div_eq_of_lt hq]

theorem oddCount_of_lt {prime q : ℕ} (_hp : 2 ≤ prime) (h : q < prime) :
    oddCount prime q = 0 := by
  rw [oddCount]
  apply Finset.sum_eq_zero
  intro i hi
  simp only [Finset.mem_Ico] at hi
  have : q < prime ^ i := lt_of_lt_of_le h (Nat.le_self_pow (by omega) prime)
  simp [Nat.div_eq_of_lt this]

theorem oddCount_rec {prime : ℕ} (hp : 2 ≤ prime) (q : ℕ) :
    oddCount prime q = q / prime % 2 + oddCount prime (q / prime) := by
  rcases Nat.eq_zero_or_pos q with hq | hq
  · subst hq
    simp [oddCount]
  · have hq' : q / prime < q := Nat.div_lt_self hq (by omega)
    rw [oddCount, Finset.sum_eq_sum_Ico_succ_bot (by omega), pow_one]
    congr 1
    have hstep : ∑ i ∈ Finset.Ico 1 q, q / prime / prime ^ i % 2
        = ∑ i ∈ Finset.Ico 1 q, q / prime ^ (1 + i) % 2 :=
      Finset.sum_congr rfl fun i _ => by
        rw [Nat.div_div_eq_div_mul, pow_add, pow_one]
    rw [oddCount_eq_sum hp (b := q) (by omega), hstep,
      Finset.sum_Ico_add (fun j => q / prime ^ j % 2) 1 q 1]

theorem mem_primeRange {lo hi x : ℕ} (h : x ∈ primeRange lo hi) :
    x.Prime ∧ lo ≤ x ∧ x ≤ hi := by
  rw [primeRange, List.mem_filter] at h
  obtain ⟨h1, h2⟩ := h
  rw [sievePrimesUpTo, List.mem_filter, List.mem_range] at h1
  exact ⟨(isPrime_iff x).mp h1.2, by simpa using h2, by omega⟩

/-- Fuel-based evaluation of the odd-quotient count: the fuel `q` always
suffices since each step divides the quotient by `prime ≥ 2`.  This
computes by structural recursion (the kernel can evaluate it directly). -/
def oddCountAux (prime : ℕ) : ℕ → ℕ → ℕ
  | 0, _ => 0
  | fuel + 1, q =>
    if q = 0 then 0
    else q / prime % 2 + oddCountAux prime fuel (q / prime)

/-- Kernel-evaluable form of `oddCount`. -/
def oddCountF (prime q : ℕ) : ℕ :=
  oddCountAux prime q q

theorem oddCountAux_eq {prime : ℕ} (hp : 2 ≤ prime) :
    ∀ fuel q, q ≤ fuel → oddCountAux prime fuel q = oddCount prime q := by
  intro fuel
  induction fuel with
  | zero =>
    intro q hq
    have : q = 0 := by omega
    subst this
    rw [oddCountAux]
    simp [oddCount]
  | succ fuel ih =>
    intro q hq
    rcases Nat.eq_zero_or_pos q with h0 | h0
    · subst h0
      rw [oddCountAux, if_pos rfl]
      simp [oddCount]
    · have hlt : q / prime < q := Nat.div_lt_self h0 (by omega)
      rw [oddCountAux, if_neg (by omega), ih (q / prime) (by omega),
        ← oddCount_rec hp q]

theorem oddCountF_eq {prime : ℕ} (hp : 2 ≤ prime) (q : ℕ) :
    oddCountF prime q = oddCount prime q :=
  oddCountAux_eq hp q q (Nat.le_refl q)

theorem primeRange_two_le {lo hi : ℕ} :
    ∀ pr ∈ primeRange lo hi, 2 ≤ pr :=
  fun pr h => (mem_primeRange h).1.two_le

/-- The per-prime inner loop of `prime_swing` (src/build.rs):
`while q != 0 { q = q / prime; if q % 2 == 1 { p = p.checked_mul(prime)? } }`.
The `prime ≤ 1` escape only serves termination: the sieve never supplies a
value below 2. -/
def swing_loop (max prime q p : ℕ) : Option ℕ :=
  if h : q = 0 ∨ prime ≤ 1 then some p
  else
    if q / prime % 2 = 1 then
      if p * prime ≤ max then swing_loop max prime (q / prime) (p * prime)
      else none
    else swing_loop max prime (q / prime) p
termination_by q
decreasing_by
  all_goals push_neg at h
  all_goals exact Nat.div_lt_self (by omega) (by omega)

/-- The same inner loop over an arbitrary-precision operand (checked
multiplication never fails). -/
def swing_loop_nat (prime q p : ℕ) : ℕ :=
  if h : q = 0 ∨ prime ≤ 1 then p
  else
    swing_loop_nat prime (q / prime)
      (if q / prime % 2 = 1 then p * prime else p)
termination_by q
decreasing_by
  push_neg at h
  exact Nat.div_lt_self (by omega) (by omega)

theorem swing_loop_nat_eq {prime : ℕ} (hp : 2 ≤ prime) :
    ∀ k q p, q ≤ k →
      swing_loop_nat prime q p = p * prime ^ oddCount prime q := by
  intro k
  induction k with
  | zero =>
    intro q p hq
    have : q = 0 := by omega
    subst this
    rw [swing_loop_nat, dif_pos (Or.inl rfl)]
    simp [oddCount]
  | succ k ih =>
    intro q p hq
    rcases Nat.eq_zero_or_pos q with h0 | h0
    · subst h0
      rw [swing_loop_nat, dif_pos (Or.inl rfl)]
      simp [oddCount]
    · rw [swing_loop_nat, dif_neg (by omega)]
      have hq' : q / prime < q := Nat.div_lt_self h0 (by omega)
      rw [ih (q / prime) _ (by omega), oddCount_rec hp q]
      by_cases hodd : q / prime % 2 = 1
      · rw [if_pos hodd, hodd, pow_add, pow_one]
        ring
      · have h2 : q / prime % 2 = 0 := by omega
        rw [if_neg hodd, h2]
        simp

theorem swing_loop_eq {max prime : ℕ} (hp : 2 ≤ prime) :
    ∀ k q p, q ≤ k → p ≤ max →
      swing_loop max prime q p =
        if p * prime ^ oddCount prime q ≤ max
        then some (p * prime ^ oddCount prime q) else none := by
  intro k
  induction k with
  | zero =>
    intro q p hq hpm
    have : q = 0 := by omega
    subst this
    have h0 : oddCount prime 0 = 0 := by simp [oddCount]
    rw [swing_loop, dif_pos (Or.inl rfl), h0, pow_zero, Nat.mul_one,
      if_pos hpm]
  | succ k ih =>
    intro q p hq hpm
    rcases Nat.eq_zero_or_pos q with h0 | h0
    · subst h0
      have h0' : oddCount prime 0 = 0 := by simp [oddCount]
      rw [swing_loop, dif_pos (Or.inl rfl), h0', pow_zero, Nat.mul_one,
        if_pos hpm]
    · rw [swing_loop, dif_neg (by omega)]
      have hq' : q / prime < q := Nat.div_lt_self h0 (by omega)
      rw [oddCount_rec hp q]
      by_cases hodd : q / prime % 2 = 1
      · rw [if_pos hodd, hodd]
        have harr : p * prime * prime ^ oddCount prime (q / prime) =
            p * prime ^ (1 + oddCount prime (q / prime)) := by
          rw [pow_add, pow_one]
          ring
        by_cases hcheck : p * prime ≤ max
        · rw [if_pos hcheck, ih (q / prime) (p * prime) (by omega) hcheck,
            harr]
        · rw [if_neg hcheck]
          have hge : p * prime ≤ p * prime ^ (1 + oddCount prime (q / prime)) := by
            have : prime ≤ prime ^ (1 + oddCount prime (q / prime)) := by
              calc prime = prime ^ 1 := (pow_one prime).symm
                _ ≤ prime ^ (1 + oddCount prime (q / prime)) :=
                  Nat.pow_le_pow_right (by omega) (by omega)
            exact Nat.mul_le_mul_left p this
          rw [if_neg (by omega)]
      · have h2 : q / prime % 2 = 0 := by omega
        rw [if_neg hodd, h2, ih (q / prime) p (by omega) hpm, Nat.zero_add]

/-- The per-prime factors multiplied into the swing product: for the list
`l` of primes, the product of `pr ^ oddCount pr n`. -/
def swingProd (n : ℕ) (l : List ℕ) : ℕ :=
  (l.map fun pr => pr ^ oddCount pr n).prod

theorem swingProd_nil (n : ℕ) : swingProd n [] = 1 := rfl

theorem swingProd_cons (n pr : ℕ) (l : List ℕ) :
    swingProd n (pr :: l) = pr ^ oddCount pr n * swingProd n l := by
  rw [swingProd, List.map_cons, List.prod_cons, swingProd]

theorem swingProd_pos {n : ℕ} :
    ∀ {l : List ℕ}, (∀ pr ∈ l, 2 ≤ pr) → 1 ≤ swingProd n l := by
  intro l
  induction l with
  | nil => intro _; exact Nat.le_refl 1
  | cons pr rest ih =>
    intro h
    rw [swingProd_cons]
    have h1 : 1 ≤ pr ^ oddCount pr n :=
      Nat.one_le_pow _ _ (by have := h pr (by simp); omega)
    have h2 : 1 ≤ swingProd n rest := ih fun x hx => h x (by simp [hx])
    calc 1 = 1 * 1 := rfl
      _ ≤ pr ^ oddCount pr n * swingProd n rest := Nat.mul_le_mul h1 h2

/-- Kernel-evaluable form of `swingProd`. -/
def swingProdF (n : ℕ) (l : List ℕ) : ℕ :=
  (l.map fun pr => pr ^ oddCountF pr n).prod

theorem swingProdF_eq {n : ℕ} {l : List ℕ} (h : ∀ pr ∈ l, 2 ≤ pr) :
    swingProdF n l = swingProd n l :=
  congrArg List.prod (List.map_congr_left fun x hx => by
    rw [oddCountF_eq (h x hx)])


/-- The outer loop of `prime_swing` (src/build.rs): for each sieve prime
below `n`, run the inner loop from `p = 1`, and if `p > 1` multiply it
into the running product with `checked_mul`; `?` propagates `None`
(modelled with `Option.bind`). -/
def prime_swing_loop (max n : ℕ) : List ℕ → ℕ → Option ℕ
  | [], product => some product
  | prime :: rest, product =>
    (swing_loop max prime n 1).bind fun p =>
      if 1 < p then
        if product * p ≤ max then prime_swing_loop max n rest (product * p)
        else none
      else prime_swing_loop max n rest product

/-- Rust `prime_swing(n, &sieve)` from src/build.rs (`u128` in the code; `max`
is the operand type's maximal value). -/
def prime_swing (max n : ℕ) : Option ℕ :=
  prime_swing_loop max n (sievePrimesBelow n) 1

/-- The outer loop over an arbitrary-precision operand. -/
def prime_swing_nat_loop (n : ℕ) : List ℕ → ℕ → ℕ
  | [], product => product
  | prime :: rest, product =>
    prime_swing_nat_loop n rest
      (if 1 < swing_loop_nat prime n 1 then
        product * swing_loop_nat prime n 1
      else product)

/-- The value computed by the single-range swing evaluator of src/build.rs
over an arbitrary-precision operand. -/
def prime_swing_nat (n : ℕ) : ℕ :=
  prime_swing_nat_loop n (sievePrimesBelow n) 1

theorem prime_swing_nat_loop_eq {n : ℕ} :
    ∀ l product, (∀ pr ∈ l, 2 ≤ pr) →
      prime_swing_nat_loop n l product = product * swingProd n l := by
  intro l
  induction l with
  | nil => intro product _; rw [prime_swing_nat_loop, swingProd_nil, Nat.mul_one]
  | cons pr rest ih =>
    intro product h
    have hpr : 2 ≤ pr := h pr (by simp)
    have hrest : ∀ x ∈ rest, 2 ≤ x := fun x hx => h x (by simp [hx])
    rw [prime_swing_nat_loop, ih _ hrest, swingProd_cons,
      swing_loop_nat_eq hpr n n 1 (Nat.le_refl n), Nat.one_mul]
    by_cases h1 : 1 < pr ^ oddCount pr n
    · rw [if_pos h1]
      ring
    · have : pr ^ oddCount pr n = 1 := by
        have : 1 ≤ pr ^ oddCount pr n := Nat.one_le_pow _ _ (by omega)
        omega
      rw [if_neg h1, this, Nat.one_mul]

theorem prime_swing_loop_eq {max n : ℕ} :
    ∀ l product, (∀ pr ∈ l, 2 ≤ pr) → 1 ≤ product → product ≤ max →
      prime_swing_loop max n l product =
        if product * swingProd n l ≤ max
        then some (product * swingProd n l) else none := by
  intro l
  induction l with
  | nil =>
    intro product _ _ hpm
    rw [prime_swing_loop, swingProd_nil, Nat.mul_one, if_pos hpm]
  | cons pr rest ih =>
    intro product h hp1 hpm
    have hpr : 2 ≤ pr := h pr (by simp)
    have hrest : ∀ x ∈ rest, 2 ≤ x := fun x hx => h x (by simp [hx])
    have hF := @swing_loop_eq max pr hpr n n 1 (Nat.le_refl n)
      (by omega)
    rw [prime_swing_loop, hF]
    simp only [Nat.one_mul]
    have hRpos : 1 ≤ swingProd n rest := swingProd_pos hrest
    rw [swingProd_cons]
    by_cases hcF : pr ^ oddCount pr n ≤ max
    · rw [if_pos hcF, Option.some_bind]
      by_cases h1 : 1 < pr ^ oddCount pr n
      · rw [if_pos h1]
        by_cases h2 : product * pr ^ oddCount pr n ≤ max
        · rw [if_pos h2, ih _ hrest (Nat.mul_pos (by omega) (by omega)) h2,
            Nat.mul_assoc]
        · rw [if_neg h2]
          have : product * pr ^ oddCount pr n ≤
              product * (pr ^ oddCount pr n * swingProd n rest) := by
            rw [← Nat.mul_assoc]
            exact Nat.le_mul_of_pos_right _ (by omega)
          rw [if_neg (by omega)]
      · have hone : pr ^ oddCount pr n = 1 := by
          have : 1 ≤ pr ^ oddCount pr n := Nat.one_le_pow _ _ (by omega)
          omega
        rw [if_neg h1, ih _ hrest hp1 hpm, hone, Nat.one_mul]
    · rw [if_neg hcF, Option.none_bind]
      have : pr ^ oddCount pr n ≤
          product * (pr ^ oddCount pr n * swingProd n rest) := by
        calc pr ^ oddCount pr n
            ≤ pr ^ oddCount pr n * swingProd n rest :=
              Nat.le_mul_of_pos_right _ (by omega)
          _ ≤ product * (pr ^ oddCount pr n * swingProd n rest) :=
              Nat.le_mul_of_pos_left _ (by omega)
      rw [if_neg (by omega)]

theorem mem_sievePrimesBelow {n pr : ℕ} (h : pr ∈ sievePrimesBelow n) :
    pr.Prime ∧ pr < n := by
  rw [sievePrimesBelow, List.mem_filter, List.mem_range] at h
  exact ⟨(isPrime_iff pr).mp h.2, h.1⟩

theorem sievePrimesBelow_two_le {n : ℕ} :
    ∀ pr ∈ sievePrimesBelow n, 2 ≤ pr :=
  fun pr h => (mem_sievePrimesBelow h).1.two_le

/-- The evaluator `prime_swing_nat` as a directly computable product over
the sieve. -/
theorem prime_swing_nat_eq_swingProd (n : ℕ) :
    prime_swing_nat n = swingProd n (sievePrimesBelow n) := by
  rw [prime_swing_nat,
    prime_swing_nat_loop_eq (sievePrimesBelow n) 1 sievePrimesBelow_two_le,
    Nat.one_mul]

/-- Characterisation of the checked single-range evaluator: it returns the
exact arbitrary-precision swing value when that fits, `None` otherwise. -/
theorem prime_swing_eq (max n : ℕ) (hmax : 1 ≤ max) :
    prime_swing max n =
      if prime_swing_nat n ≤ max then some (prime_swing_nat n) else none := by
  rw [prime_swing,
    prime_swing_loop_eq (sievePrimesBelow n) 1 sievePrimesBelow_two_le
      (Nat.le_refl 1) hmax,
    Nat.one_mul, prime_swing_nat_eq_swingProd]

/-- The full swing value `Swing(n)` of the specification glossary: the
product over all primes `p ≤ n` of `p` raised to the number of odd
quotients `⌊n / p^i⌋`. -/
def fullSwing (n : ℕ) : ℕ :=
  ∏ p ∈ (Finset.range (n + 1)).filter Nat.Prime, p ^ oddCount p n

theorem fullSwing_ne_zero (n : ℕ) : fullSwing n ≠ 0 := by
  rw [fullSwing]
  apply Finset.prod_ne_zero_iff.mpr
  intro p hp
  exact pow_ne_zero _ (Finset.mem_filter.mp hp).2.pos.ne'

/-- Legendre's theorem, with the summation bound `b` freely chosen above
`n`. -/
theorem factorization_factorial_sum {p : ℕ} (hp : p.Prime) {n b : ℕ}
    (hb : n < b) :
    (n.factorial).factorization p = ∑ i ∈ Finset.Ico 1 b, n / p ^ i := by
  haveI := Fact.mk hp
  rw [Nat.factorization_def _ hp]
  exact padicValNat_factorial (lt_of_le_of_lt (Nat.log_le_self p n) hb)

theorem fullSwing_factorization {n p : ℕ} (hp : p.Prime) :
    (fullSwing n).factorization p = oddCount p n := by
  rw [fullSwing, Nat.factorization_prod
    (fun q hq => pow_ne_zero _ (Finset.mem_filter.mp hq).2.pos.ne')]
  rw [Finsupp.finset_sum_apply]
  have hterm : ∀ q ∈ (Finset.range (n + 1)).filter Nat.Prime,
      (q ^ oddCount q n).factorization p =
        if q = p then oddCount q n else 0 := by
    intro q hq
    rw [(Finset.mem_filter.mp hq).2.factorization_pow, Finsupp.single_apply]
  rw [Finset.sum_congr rfl hterm, Finset.sum_ite_eq']
  by_cases hmem : p ∈ (Finset.range (n + 1)).filter Nat.Prime
  · rw [if_pos hmem]
  · rw [if_neg hmem]
    have hnp : n < p := by
      by_contra hle
      exact hmem (Finset.mem_filter.mpr
        ⟨Finset.mem_range.mpr (by omega), hp⟩)
    exact (oddCount_of_lt hp.two_le hnp).symm

/-- The per-prime split of Legendre's sum: the valuation of `n!` is twice
the valuation of `⌊n/2⌋!` plus the number of odd quotients. -/
theorem legendre_split {p : ℕ} (hp : p.Prime) (n : ℕ) :
    ∑ i ∈ Finset.Ico 1 (n + 1), n / p ^ i =
      2 * ∑ i ∈ Finset.Ico 1 (n + 1), n / 2 / p ^ i + oddCount p n := by
  have hpt : ∀ i, n / p ^ i = 2 * (n / 2 / p ^ i) + n / p ^ i % 2 := by
    intro i
    have h1 : n / 2 / p ^ i = n / p ^ i / 2 := by
      rw [Nat.div_div_eq_div_mul, Nat.div_div_eq_div_mul, Nat.mul_comm]
    rw [h1]
    exact (Nat.div_add_mod (n / p ^ i) 2).symm
  rw [Finset.sum_congr rfl fun i _ => hpt i, Finset.sum_add_distrib,
    Finset.mul_sum]
  congr 1

/-- Luschny's swing identity: `n! = (⌊n/2⌋!)² · Swing(n)` for the full
prime product over `p ≤ n`. -/
theorem factorial_eq_half_sq_mul_fullSwing (n : ℕ) :
    Nat.factorial n = Nat.factorial (n / 2) ^ 2 * fullSwing n := by
  have hhalf : Nat.factorial (n / 2) ^ 2 ≠ 0 :=
    pow_ne_zero _ (Nat.factorial_ne_zero _)
  apply Nat.eq_of_factorization_eq (Nat.factorial_ne_zero n)
    (mul_ne_zero hhalf (fullSwing_ne_zero n))
  intro p
  by_cases hp : p.Prime
  · rw [Nat.factorization_mul hhalf (fullSwing_ne_zero n),
      Finsupp.add_apply, Nat.factorization_pow, Finsupp.smul_apply,
      smul_eq_mul, factorization_factorial_sum hp (Nat.lt_succ_self n),
      factorization_factorial_sum hp (b := n + 1) (by omega),
      fullSwing_factorization hp, legendre_split hp n]
  · rw [Nat.factorization_eq_zero_of_non_prime _ hp,
      Nat.factorization_eq_zero_of_non_prime _ hp]

theorem oddCount_self {n : ℕ} (hn : 2 ≤ n) : oddCount n n = 1 := by
  rw [oddCount_rec (by omega) n, Nat.div_self (by omega),
    oddCount_of_lt (by omega) (by omega)]

/-- The single-range evaluator of src/build.rs computes the full swing
with the factor `n` removed when `n` itself is prime (it enumerates only
primes strictly below `n`). -/
theorem fullSwing_eq_prime_swing_nat (n : ℕ) :
    fullSwing n = prime_swing_nat n * (if n.Prime then n else 1) := by
  rw [prime_swing_nat_eq_swingProd]
  have hlist : swingProd n (sievePrimesBelow n) =
      ∏ p ∈ (Finset.range n).filter Nat.Prime, p ^ oddCount p n := by
    rw [swingProd]
    exact sievePrimesBelow_prod _ n
  rw [fullSwing, Finset.range_succ, Finset.filter_insert]
  by_cases hn : n.Prime
  · rw [if_pos hn, if_pos hn, Finset.prod_insert (by simp), hlist,
      oddCount_self hn.two_le, pow_one]
    ring
  · rw [if_neg hn, if_neg hn, hlist, Nat.mul_one]

/-- C2, counterexample: at `n = 3` the single-range swing evaluator (which
enumerates only primes strictly below `n`) yields `2`, but
`3! ≠ (⌊3/2⌋!)² · 2`, so the claimed identity `factorial(n) =
factorial(⌊n/2⌋)² · swing(n)` fails for the computed swing value. -/
theorem prime_swing_identity_fails_at_three :
    prime_swing_nat 3 = 2 ∧
    Nat.factorial 3 ≠ Nat.factorial (3 / 2) ^ 2 * prime_swing_nat 3 := by
  have h : prime_swing_nat 3 = 2 := by
    rw [prime_swing_nat_eq_swingProd, ← swingProdF_eq sievePrimesBelow_two_le]
    decide
  refine ⟨h, ?_⟩
  rw [h]
  decide

/-- C2 (amended): the product over primes `p ≤ n` of `p` raised to the
number of odd quotients `⌊n/p^k⌋` equals `n!/(⌊n/2⌋!)²` — i.e.
`(⌊n/2⌋!)² · Swing(n) = n!` — and the swing evaluator of src/build.rs
computes exactly that product with the prime `p = n` omitted, so its value
must be multiplied by `n` when `n` is prime for the recurrence to hold. -/
theorem factorial_half_sq_swing_amended (n : ℕ) :
    Nat.factorial (n / 2) ^ 2 *
        (prime_swing_nat n * (if n.Prime then n else 1)) =
      Nat.factorial n ∧
    Nat.factorial (n / 2) ^ 2 * fullSwing n = Nat.factorial n := by
  constructor
  · rw [← fullSwing_eq_prime_swing_nat, ← factorial_eq_half_sq_mul_fullSwing]
  · rw [← factorial_eq_half_sq_mul_fullSwing]

/-- The committed table `SMALL_FACTORIAL` from src/src/array.rs
(35 entries). -/
def SMALL_FACTORIAL : List ℕ := [
  1, 1, 2, 6, 24, 120, 720, 5040, 40320, 362880, 3628800, 39916800,
  479001600, 6227020800, 87178291200, 1307674368000, 20922789888000,
  355687428096000, 6402373705728000, 121645100408832000,
  2432902008176640000, 51090942171709440000, 1124000727777607680000,
  25852016738884976640000, 620448401733239439360000,
  15511210043330985984000000, 403291461126605635584000000,
  10888869450418352160768000000, 304888344611713860501504000000,
  8841761993739701954543616000000, 265252859812191058636308480000000,
  8222838654177922817725562880000000,
  263130836933693530167218012160000000,
  8683317618811886495518194401280000000,
  295232799039604140847618609643520000000]

/-- The committed table `SMALL_PRIME_SWING` from src/src/array.rs
(129 entries). -/
def SMALL_PRIME_SWING : List ℕ := [
  1, 1, 1, 3, 3, 15, 5, 35, 35, 315, 63, 693, 231, 3003, 429, 6435, 6435,
  109395, 12155, 230945, 46189, 969969, 88179, 2028117, 676039, 16900975,
  1300075, 35102025, 5014575, 145422675, 9694845, 300540195, 300540195,
  9917826435, 583401555, 20419054425, 2268783825, 83945001525, 4418157975,
  172308161025, 34461632205, 1412926920405, 67282234305, 2893136075115,
  263012370465, 11835556670925, 514589420475, 24185702762325,
  8061900920775, 395033145117975, 15801325804719, 805867616040669,
  61989816618513, 3285460280781189, 121683714103007, 6692604275665385,
  956086325095055, 54496920530418135, 1879204156221315,
  110873045217057585, 7391536347803839, 450883717216034179,
  14544636039226909, 916312070471295267, 916312070471295267,
  59560284580634192355, 1804857108504066435, 120925426269772451145,
  7113260368810144185, 490814965447899948765, 14023284727082855679,
  995653215622882753209, 110628135069209194801, 8075853860052271220473,
  218266320541953276229, 16369974040646495717175, 861577581086657669325,
  66341473743672640538025, 1701063429324939500975,
  134384010916670220577025, 26876802183334044115405,
  2177020976850057573347805, 53098072606098965203605,
  4407140026306214111899215, 209863810776486386280915,
  17838423916001342833877775, 414847067813984717066925,
  36091694899816670384822475, 3281063172710606398620225,
  292014622371243969477200025, 6489213830472088210604445,
  590518458572960027165004495, 25674715590128696833261065,
  2387748549881968805493279045, 50803160635786570329644235,
  4826300260399724181316202325, 1608766753466574727105400775,
  156050375086257748529223875175, 3184701532372607112841303575,
  315285451704888104171289053925, 12611418068195524166851562157,
  1273753224887747940852007777857, 24975553429171528252000152507,
  2572482003204667409956015708221, 197883231015743646919693516017,
  20777739256653082926567819181785, 392032816163265715595619229845,
  41947511329469431568731257593415, 1553611530721090058101157688645,
  169343656848598816333026188062305, 3078975579065433024236839782951,
  341766289276263065690289215907561, 48823755610894723670041316558223,
  5517084384031103774714668771079199, 96790954105808838152888925808407,
  11130959722168016387582226467966805, 383826197316138496123525050619545,
  44907665085988204046452430922486765, 761146865864206848244956456313335,
  90576477037840614941149818301286865, 6038431802522707662743321220085791,
  730650248105247627191941867630380711,
  11977872919758157822818719141481651,
  1473278369130253412206702454402243073,
  47525108681621077813119434012975583,
  5940638585202634726639929251621947875,
  94295850558771979787935384946380125,
  11975573020964041433067793888190275875,
  11975573020964041433067793888190275875]

/-- The odd swing: product over the odd primes `3 ≤ p ≤ n` of `p` raised
to the odd-quotient count — the value tabulated in `SMALL_PRIME_SWING`
and computed by the banded evaluator of src/examples/build.rs (which
skips prime 2 and includes `p = n`). -/
def oddSwing (n : ℕ) : ℕ :=
  swingProd n (primeRange 3 n)

set_option maxRecDepth 100000 in
set_option maxHeartbeats 4000000 in
/-- C4: the `SMALL_FACTORIAL` table is exact (`entry i = i!`), and the
`SMALL_PRIME_SWING` table holds the odd swing values; but the sieve-based
swing evaluator of src/build.rs does *not* reproduce the swing table: at
index 3 the table holds `3` while `prime_swing(3)` returns `Some(2)`
(the evaluator includes prime 2 and omits the prime `n` itself, whereas
the committed table was generated by the banded evaluator, which omits
prime 2 and includes `n`). -/
theorem small_tables_check :
    (∀ i : ℕ, SMALL_FACTORIAL.getD i 0 =
      if i < 35 then Nat.factorial i else 0) ∧
    (∀ i : ℕ, SMALL_PRIME_SWING.getD i 0 =
      if i < 129 then oddSwing i else 0) ∧
    prime_swing 340282366920938463463374607431768211455 3 = some 2 ∧
    SMALL_PRIME_SWING.getD 3 0 = 3 := by
  have h1 : ∀ i, i < 35 → SMALL_FACTORIAL.getD i 0 = Nat.factorial i := by
    decide
  have h2F : ∀ i, i < 129 →
      SMALL_PRIME_SWING.getD i 0 = swingProdF i (primeRange 3 i) := by
    decide
  have h2 : ∀ i, i < 129 → SMALL_PRIME_SWING.getD i 0 = oddSwing i := by
    intro i hi
    rw [oddSwing, ← swingProdF_eq primeRange_two_le]
    exact h2F i hi
  refine ⟨?_, ?_, ?_, by decide⟩
  · intro i
    by_cases h : i < 35
    · rw [if_pos h]
      exact h1 i h
    · rw [if_neg h]
      exact List.getD_eq_default _ _ (by rw [show SMALL_FACTORIAL.length = 35 from rfl]; omega)
  · intro i
    by_cases h : i < 129
    · rw [if_pos h]
      exact h2 i h
    · rw [if_neg h]
      exact List.getD_eq_default _ _ (by rw [show SMALL_PRIME_SWING.length = 129 from rfl]; omega)
  · rw [prime_swing_eq _ 3 (by decide), prime_swing_nat_eq_swingProd,
      ← swingProdF_eq sievePrimesBelow_two_le]
    decide

/-- C10: the checked operations are deterministic and mutate no shared
state: they are pure functions of the input (the Rust methods take `&self`
and only read the sieve), so two calls with identical input `n` — and the
swing evaluator with the same reused sieve — return bit-identical
results. -/
theorem checked_calls_deterministic (max n₁ n₂ : ℕ) (h : n₁ = n₂) :
    checked_factorial max n₁ = checked_factorial max n₂ ∧
    checked_double_factorial max n₁ = checked_double_factorial max n₂ ∧
    prime_swing max n₁ = prime_swing max n₂ := by
  subst h
  exact ⟨rfl, rfl, rfl⟩

/-- Witness for C10 at `n = 10`, `max = 2^32 - 1`. -/
theorem checked_calls_deterministic_witness :
    checked_factorial 4294967295 10 = checked_factorial 4294967295 10 ∧
    checked_double_factorial 4294967295 10 =
      checked_double_factorial 4294967295 10 ∧
    prime_swing 4294967295 10 = prime_swing 4294967295 10 :=
  checked_calls_deterministic 4294967295 10 10 rfl

/-- The table `SMALL_SWING` from src/examples/build.rs (33 entries of the
odd swing). -/
def SMALL_SWING : List ℕ := [
  1, 1, 1, 3, 3, 15, 5, 35, 35, 315, 63, 693, 231, 3003, 429, 6435, 6435,
  109395, 12155, 230945, 46189, 969969, 88179, 2028117, 676039, 16900975,
  1300075, 35102025, 5014575, 145422675, 9694845, 300540195, 300540195]

/-- The small-prime inner loop of the banded evaluator
(src/examples/build.rs): `loop { q /= prime; if q == 0 { break; }
if q & 1 == 1 { p *= prime; } }` over an arbitrary-precision operand
(`p *= prime` is unchecked in the source).  The `prime ≤ 1` escape only
serves termination: the sieve never supplies a value below 2. -/
def swing_loopB (prime q p : ℕ) : ℕ :=
  if h : q / prime = 0 ∨ prime ≤ 1 then p
  else
    swing_loopB prime (q / prime)
      (if q / prime % 2 = 1 then p * prime else p)
termination_by q
decreasing_by
  push_neg at h
  have hq : q ≠ 0 := fun h0 => h.1 (by rw [h0, Nat.zero_div])
  exact Nat.div_lt_self (by omega) (by omega)

theorem swing_loopB_eq {prime : ℕ} (hp : 2 ≤ prime) :
    ∀ k q p, q ≤ k → swing_loopB prime q p = p * prime ^ oddCount prime q := by
  intro k
  induction k with
  | zero =>
    intro q p hq
    have : q = 0 := by omega
    subst this
    rw [swing_loopB, dif_pos (Or.inl (Nat.zero_div prime))]
    simp [oddCount]
  | succ k ih =>
    intro q p hq
    by_cases hq0 : q / prime = 0
    · rw [swing_loopB, dif_pos (Or.inl hq0)]
      have hlt : q < prime := by
        by_contra hge
        have : 1 ≤ q / prime := (Nat.one_le_div_iff (by omega)).mpr (by omega)
        omega
      rw [oddCount_of_lt hp hlt]
      simp
    · have hqne : q ≠ 0 := fun h0 => hq0 (by rw [h0, Nat.zero_div])
      rw [swing_loopB, dif_neg (not_or.mpr ⟨hq0, by omega⟩)]
      have hlt : q / prime < q := Nat.div_lt_self (by omega) (by omega)
      rw [ih (q / prime) _ (by omega), oddCount_rec hp q]
      by_cases hodd : q / prime % 2 = 1
      · rw [if_pos hodd, hodd, pow_add, pow_one]
        ring
      · have h2 : q / prime % 2 = 0 := by omega
        rw [if_neg hodd, h2]
        simp

/-- Rust `prime_swing` from src/examples/build.rs over an arbitrary-precision
operand: the small-swing table below 33; otherwise three sequential prime
bands — large primes in `(n/2, n]` multiplied in directly, medium primes
in `(√n, n/3]` multiplied in when `⌊n/p⌋` is odd (`& 1` is `% 2`), and
small primes in `[3, √n]` through the general per-prime loop, multiplied
in when the accumulated factor exceeds 1.  `(n as f64).sqrt().floor()` is
modelled by `Nat.sqrt n`: for every `n` at which the `u128` code can
produce a value (`n ≤ 128`, far below `2^53`) the float computation is
exact. -/
def prime_swing_banded_nat (n : ℕ) : ℕ :=
  if n < 33 then SMALL_SWING.getD n 0
  else
    (primeRange 3 (Nat.sqrt n)).foldl
      (fun product prime =>
        if 1 < swing_loopB prime n 1 then product * swing_loopB prime n 1
        else product)
      ((primeRange (Nat.sqrt n + 1) (n / 3)).foldl
        (fun product prime =>
          if n / prime % 2 = 1 then product * prime else product)
        ((primeRange (n / 2 + 1) n).foldl
          (fun product prime => product * prime) 1))

theorem foldl_mul_body (body : ℕ → ℕ → ℕ) (f : ℕ → ℕ)
    (hbody : ∀ a x, body a x = a * f x) :
    ∀ (l : List ℕ) (a : ℕ), l.foldl body a = a * (l.map f).prod := by
  intro l
  induction l with
  | nil => intro a; simp
  | cons x rest ih =>
    intro a
    rw [List.foldl_cons, hbody, ih, List.map_cons, List.prod_cons,
      Nat.mul_assoc]

/-- Splitting a filtered-prime interval product at an inner boundary. -/
theorem Icc_filter_prod_split (f : ℕ → ℕ) {a b c : ℕ} (hab : a ≤ b + 1)
    (hbc : b ≤ c) :
    ∏ p ∈ (Finset.Icc a c).filter Nat.Prime, f p =
      (∏ p ∈ (Finset.Icc a b).filter Nat.Prime, f p) *
        ∏ p ∈ (Finset.Icc (b + 1) c).filter Nat.Prime, f p := by
  rw [← Finset.prod_union]
  · apply Finset.prod_congr _ fun x _ => rfl
    ext x
    simp only [Finset.mem_union, Finset.mem_filter, Finset.mem_Icc]
    constructor
    · rintro ⟨⟨h1, h2⟩, hP⟩
      by_cases hx : x ≤ b
      · exact Or.inl ⟨⟨h1, hx⟩, hP⟩
      · exact Or.inr ⟨⟨by omega, h2⟩, hP⟩
    · rintro (⟨⟨h1, h2⟩, hP⟩ | ⟨⟨h1, h2⟩, hP⟩)
      · exact ⟨⟨h1, by omega⟩, hP⟩
      · exact ⟨⟨by omega, h2⟩, hP⟩
  · rw [Finset.disjoint_left]
    intro x hx hx'
    have h1 := (Finset.mem_filter.mp hx).1
    have h2 := (Finset.mem_filter.mp hx').1
    rw [Finset.mem_Icc] at h1 h2
    omega

theorem oddCount_large {p n : ℕ} (hp : 2 ≤ p) (h1 : n / 2 < p)
    (h2 : p ≤ n) : oddCount p n = 1 := by
  have hdiv : n / p = 1 := by
    have hge : 1 ≤ n / p := (Nat.one_le_div_iff (by omega)).mpr h2
    have hlt : n / p < 2 := (Nat.div_lt_iff_lt_mul (by omega)).mpr (by omega)
    omega
  rw [oddCount_rec hp, hdiv, oddCount_of_lt hp (by omega)]

theorem oddCount_medium {p n : ℕ} (hp : 2 ≤ p) (hs : Nat.sqrt n < p) :
    oddCount p n = n / p % 2 := by
  have hnp2 : n < p * p := Nat.sqrt_lt.mp hs
  have hlt : n / p < p := (Nat.div_lt_iff_lt_mul (by omega)).mpr hnp2
  rw [oddCount_rec hp, oddCount_of_lt hp hlt, Nat.add_zero]

theorem oddCount_gap {p n : ℕ} (hn : 9 ≤ n) (h1 : n / 3 < p)
    (h2 : p ≤ n / 2) : oddCount p n = 0 := by
  have hp : 2 ≤ p := by omega
  have hdiv : n / p = 2 := by
    have hge : 2 ≤ n / p := (Nat.le_div_iff_mul_le (by omega)).mpr (by omega)
    have hlt : n / p < 3 := (Nat.div_lt_iff_lt_mul (by omega)).mpr (by omega)
    omega
  rw [oddCount_rec hp, hdiv, oddCount_of_lt hp (by omega)]

/-- Band-partition correctness of the banded evaluator: for `n ≥ 33` it
computes exactly the odd swing (the product over the odd primes
`3 ≤ p ≤ n` with odd-quotient exponents). -/
theorem prime_swing_banded_nat_eq {n : ℕ} (hn : 33 ≤ n) :
    prime_swing_banded_nat n = oddSwing n := by
  have hs5 : 5 ≤ Nat.sqrt n := Nat.le_sqrt.mpr (by omega)
  have hss : Nat.sqrt n * Nat.sqrt n ≤ n := Nat.sqrt_le n
  have hs3 : Nat.sqrt n ≤ n / 3 := by
    apply (Nat.le_div_iff_mul_le (by omega)).mpr
    calc Nat.sqrt n * 3 ≤ Nat.sqrt n * Nat.sqrt n :=
          Nat.mul_le_mul_left _ (by omega)
      _ ≤ n := hss
  have hsn : Nat.sqrt n ≤ n := Nat.sqrt_le_self n
  rw [prime_swing_banded_nat, if_neg (by omega)]
  rw [foldl_mul_body _
    (fun x => if 1 < swing_loopB x n 1 then swing_loopB x n 1 else 1)
    (by
      intro a x
      dsimp only
      by_cases h : 1 < swing_loopB x n 1
      · rw [if_pos h, if_pos h]
      · rw [if_neg h, if_neg h, Nat.mul_one])]
  rw [foldl_mul_body _ (fun x => if n / x % 2 = 1 then x else 1)
    (by
      intro a x
      dsimp only
      by_cases h : n / x % 2 = 1
      · rw [if_pos h, if_pos h]
      · rw [if_neg h, if_neg h, Nat.mul_one])]
  rw [foldl_mul_body _ (fun x => x) (fun a x => rfl)]
  rw [primeRange_prod, primeRange_prod, primeRange_prod]
  rw [oddSwing, swingProd, primeRange_prod]
  rw [Icc_filter_prod_split (a := 3) (b := Nat.sqrt n) (c := n) _
      (by omega) hsn,
    Icc_filter_prod_split (a := Nat.sqrt n + 1) (b := n / 3) (c := n) _
      (by omega) (by omega),
    Icc_filter_prod_split (a := n / 3 + 1) (b := n / 2) (c := n) _
      (by omega) (by omega)]
  have hlarge : ∏ p ∈ (Finset.Icc (n / 2 + 1) n).filter Nat.Prime,
      p ^ oddCount p n =
      ∏ p ∈ (Finset.Icc (n / 2 + 1) n).filter Nat.Prime, p := by
    apply Finset.prod_congr rfl
    intro p hp
    obtain ⟨hmem, hP⟩ := Finset.mem_filter.mp hp
    rw [Finset.mem_Icc] at hmem
    rw [oddCount_large hP.two_le (by omega) (by omega), pow_one]
  have hgap : ∏ p ∈ (Finset.Icc (n / 3 + 1) (n / 2)).filter Nat.Prime,
      p ^ oddCount p n = 1 := by
    apply Finset.prod_eq_one
    intro p hp
    obtain ⟨hmem, hP⟩ := Finset.mem_filter.mp hp
    rw [Finset.mem_Icc] at hmem
    rw [oddCount_gap (by omega) (by omega) (by omega), pow_zero]
  have hmed : ∏ p ∈ (Finset.Icc (Nat.sqrt n + 1) (n / 3)).filter Nat.Prime,
      p ^ oddCount p n =
      ∏ p ∈ (Finset.Icc (Nat.sqrt n + 1) (n / 3)).filter Nat.Prime,
        (if n / p % 2 = 1 then p else 1) := by
    apply Finset.prod_congr rfl
    intro p hp
    obtain ⟨hmem, hP⟩ := Finset.mem_filter.mp hp
    rw [Finset.mem_Icc] at hmem
    rw [oddCount_medium hP.two_le (by omega)]
    by_cases h : n / p % 2 = 1
    · rw [h, pow_one, if_pos rfl]
    · have h0 : n / p % 2 = 0 := by omega
      rw [if_neg h, h0, pow_zero]
  have hsmall : ∏ p ∈ (Finset.Icc 3 (Nat.sqrt n)).filter Nat.Prime,
      p ^ oddCount p n =
      ∏ p ∈ (Finset.Icc 3 (Nat.sqrt n)).filter Nat.Prime,
        (if 1 < swing_loopB p n 1 then swing_loopB p n 1 else 1) := by
    apply Finset.prod_congr rfl
    intro p hp
    obtain ⟨_, hP⟩ := Finset.mem_filter.mp hp
    have hloop : swing_loopB p n 1 = p ^ oddCount p n := by
      rw [swing_loopB_eq hP.two_le n n 1 (Nat.le_refl n), Nat.one_mul]
    rw [hloop]
    by_cases h : 1 < p ^ oddCount p n
    · rw [if_pos h]
    · have : p ^ oddCount p n = 1 := by
        have : 1 ≤ p ^ oddCount p n := Nat.one_le_pow _ _ (by
          have := hP.two_le
          omega)
        omega
      rw [if_neg h, this]
  rw [hlarge, hgap, hmed, hsmall]
  ring

/-- Band A of src/examples/build.rs: large primes `p ∈ (n/2, n]`. -/
def largeBand (n : ℕ) : Finset ℕ :=
  (Finset.Icc (n / 2 + 1) n).filter Nat.Prime

/-- Band B of src/examples/build.rs: medium primes `p ∈ (√n, n/3]`. -/
def mediumBand (n : ℕ) : Finset ℕ :=
  (Finset.Icc (Nat.sqrt n + 1) (n / 3)).filter Nat.Prime

/-- Band C of src/examples/build.rs: small primes `p ∈ [3, √n]` (prime 2
is never enumerated). -/
def smallBand (n : ℕ) : Finset ℕ :=
  (Finset.Icc 3 (Nat.sqrt n)).filter Nat.Prime

/-- The primes `p ∈ (n/3, n/2]` that no band enumerates. -/
def gapBand (n : ℕ) : Finset ℕ :=
  (Finset.Icc (n / 3 + 1) (n / 2)).filter Nat.Prime

/-- Splitting the full swing into the power of two and the odd swing. -/
theorem fullSwing_eq_two_pow_mul_oddSwing {n : ℕ} (hn : 2 ≤ n) :
    fullSwing n = 2 ^ oddCount 2 n * oddSwing n := by
  have hset : (Finset.range (n + 1)).filter Nat.Prime =
      insert 2 ((Finset.Icc 3 n).filter Nat.Prime) := by
    ext x
    simp only [Finset.mem_filter, Finset.mem_range, Finset.mem_insert,
      Finset.mem_Icc]
    constructor
    · rintro ⟨hr, hP⟩
      by_cases hx : x = 2
      · exact Or.inl hx
      · have := hP.two_le
        exact Or.inr ⟨⟨by omega, by omega⟩, hP⟩
    · rintro (rfl | ⟨⟨h3, hle⟩, hP⟩)
      · exact ⟨by omega, Nat.prime_two⟩
      · exact ⟨by omega, hP⟩
  rw [fullSwing, hset, Finset.prod_insert (by simp), oddSwing, swingProd,
    primeRange_prod]

/-- C3 (amended): for `n ≥ 33` the three bands are pairwise disjoint, but
their union is *not* the primes in `[2, n)`: together with the deliberately
skipped primes in `(n/3, n/2]` (whose swing exponent is 0) they cover
exactly the primes in `[3, n]`; prime 2 is never enumerated and `p = n` is
included.  Consequently the banded evaluator returns the odd swing, which
differs from the single-range evaluator of src/build.rs by the power of
two and, for prime `n`, by the factor `n`. -/
theorem prime_swing_banded_partition (n : ℕ) (hn : 33 ≤ n) :
    prime_swing_banded_nat n = oddSwing n ∧
    (Disjoint (smallBand n) (mediumBand n) ∧
      Disjoint (mediumBand n) (largeBand n) ∧
      Disjoint (smallBand n) (largeBand n)) ∧
    smallBand n ∪ mediumBand n ∪ largeBand n ∪ gapBand n =
      (Finset.Icc 3 n).filter Nat.Prime ∧
    (∀ p ∈ gapBand n, oddCount p n = 0) ∧
    2 ∉ smallBand n ∪ mediumBand n ∪ largeBand n ∧
    2 ^ oddCount 2 n * prime_swing_banded_nat n =
      prime_swing_nat n * (if n.Prime then n else 1) := by
  have hs5 : 5 ≤ Nat.sqrt n := Nat.le_sqrt.mpr (by omega)
  have hss : Nat.sqrt n * Nat.sqrt n ≤ n := Nat.sqrt_le n
  have hs3 : Nat.sqrt n ≤ n / 3 := by
    apply (Nat.le_div_iff_mul_le (by omega)).mpr
    calc Nat.sqrt n * 3 ≤ Nat.sqrt n * Nat.sqrt n :=
          Nat.mul_le_mul_left _ (by omega)
      _ ≤ n := hss
  refine ⟨prime_swing_banded_nat_eq hn, ⟨?_, ?_, ?_⟩, ?_, ?_, ?_, ?_⟩
  · rw [Finset.disjoint_left]
    intro x hx hx'
    have h1 := (Finset.mem_filter.mp hx).1
    have h2 := (Finset.mem_filter.mp hx').1
    rw [Finset.mem_Icc] at h1 h2
    omega
  · rw [Finset.disjoint_left]
    intro x hx hx'
    have h1 := (Finset.mem_filter.mp hx).1
    have h2 := (Finset.mem_filter.mp hx').1
    rw [Finset.mem_Icc] at h1 h2
    omega
  · rw [Finset.disjoint_left]
    intro x hx hx'
    have h1 := (Finset.mem_filter.mp hx).1
    have h2 := (Finset.mem_filter.mp hx').1
    rw [Finset.mem_Icc] at h1 h2
    omega
  · ext x
    simp only [smallBand, mediumBand, largeBand, gapBand, Finset.mem_union,
      Finset.mem_filter, Finset.mem_Icc]
    constructor
    · rintro (((⟨h1, hP⟩ | ⟨h1, hP⟩) | ⟨h1, hP⟩) | ⟨h1, hP⟩) <;>
        exact ⟨by omega, hP⟩
    · rintro ⟨⟨h3, hle⟩, hP⟩
      by_cases hx1 : x ≤ Nat.sqrt n
      · exact Or.inl (Or.inl (Or.inl ⟨⟨h3, hx1⟩, hP⟩))
      · by_cases hx2 : x ≤ n / 3
        · exact Or.inl (Or.inl (Or.inr ⟨⟨by omega, hx2⟩, hP⟩))
        · by_cases hx3 : x ≤ n / 2
          · exact Or.inr ⟨⟨by omega, hx3⟩, hP⟩
          · exact Or.inl (Or.inr ⟨⟨by omega, hle⟩, hP⟩)
  · intro p hp
    have h1 := (Finset.mem_filter.mp hp).1
    rw [Finset.mem_Icc] at h1
    exact oddCount_gap (by omega) (by omega) (by omega)
  · simp only [smallBand, mediumBand, largeBand, Finset.mem_union,
      Finset.mem_filter, Finset.mem_Icc]
    push_neg
    refine ⟨⟨fun h => absurd h (by omega), fun h => absurd h (by omega)⟩,
      fun h => absurd h (by omega)⟩
  · rw [prime_swing_banded_nat_eq hn, ← fullSwing_eq_two_pow_mul_oddSwing
      (by omega), fullSwing_eq_prime_swing_nat]

/-- C3, counterexample: at `n = 33` the banded evaluator returns
`9917826435` (the odd swing) while the single-range evaluator returns
`19835652870 = 2 · 9917826435` (it also multiplies in the prime 2, which
the bands never enumerate), so the two evaluators do not return the same
value and the bands do not cover the primes of `[2, n)`. -/
theorem prime_swing_banded_ne_single_at_33 :
    prime_swing_banded_nat 33 = 9917826435 ∧
    prime_swing_nat 33 = 19835652870 ∧
    ¬prime_swing_banded_nat 33 = prime_swing_nat 33 := by
  have h1 : prime_swing_banded_nat 33 = 9917826435 := by
    rw [prime_swing_banded_nat_eq (by omega), oddSwing,
      ← swingProdF_eq primeRange_two_le]
    decide
  have h2 : prime_swing_nat 33 = 19835652870 := by
    rw [prime_swing_nat_eq_swingProd, ← swingProdF_eq sievePrimesBelow_two_le]
    decide
  refine ⟨h1, h2, ?_⟩
  rw [h1, h2]
  decide

/-- Witness for C3 (amended) at `n = 40`. -/
theorem prime_swing_banded_partition_witness :
    33 ≤ 40 ∧ prime_swing_banded_nat 40 = oddSwing 40 :=
  ⟨by decide, (prime_swing_banded_partition 40 (by decide)).1⟩

/-- The value `u128::MAX`, the bound of `checked_mul` in the build
scripts. -/
def U128_MAX : ℕ := 340282366920938463463374607431768211455

/-- The modulus `2^128` of wrapping unchecked `u128` multiplication. -/
def U128_MOD : ℕ := 340282366920938463463374607431768211456

/-- The small-prime inner loop at `u128`: `p *= prime` wraps modulo
`2^128` (modulus `W`). -/
def swing_loopB_wrap (W prime q p : ℕ) : ℕ :=
  if h : q / prime = 0 ∨ prime ≤ 1 then p
  else
    swing_loopB_wrap W prime (q / prime)
      (if q / prime % 2 = 1 then p * prime % W else p)
termination_by q
decreasing_by
  push_neg at h
  have hq : q ≠ 0 := fun h0 => h.1 (by rw [h0, Nat.zero_div])
  exact Nat.div_lt_self (by omega) (by omega)

/-- The wrapping accumulator never actually wraps: as long as the original
`p * q` stays below the modulus, each intermediate accumulator is below
the modulus (the accumulator is bounded by the prime powers not exceeding
`q`). -/
theorem swing_loopB_wrap_eq {W prime : ℕ} (hp : 2 ≤ prime) :
    ∀ k q p, q ≤ k → p * q < W →
      swing_loopB_wrap W prime q p = swing_loopB prime q p := by
  intro k
  induction k with
  | zero =>
    intro q p hq hW
    have : q = 0 := by omega
    subst this
    rw [swing_loopB_wrap, swing_loopB, dif_pos (Or.inl (Nat.zero_div prime)),
      dif_pos (Or.inl (Nat.zero_div prime))]
  | succ k ih =>
    intro q p hq hW
    by_cases hq0 : q / prime = 0
    · rw [swing_loopB_wrap, swing_loopB, dif_pos (Or.inl hq0),
        dif_pos (Or.inl hq0)]
    · have hqne : q ≠ 0 := fun h0 => hq0 (by rw [h0, Nat.zero_div])
      have hlt : q / prime < q := Nat.div_lt_self (by omega) (by omega)
      have hmul : q / prime * prime ≤ q := Nat.div_mul_le_self q prime
      rw [swing_loopB_wrap, swing_loopB, dif_neg (not_or.mpr ⟨hq0, by omega⟩),
        dif_neg (not_or.mpr ⟨hq0, by omega⟩)]
      by_cases hodd : q / prime % 2 = 1
      · have hbound : p * prime * (q / prime) ≤ p * q := by
          calc p * prime * (q / prime) = p * (q / prime * prime) := by ring
            _ ≤ p * q := Nat.mul_le_mul_left p hmul
        have hpprime : p * prime < W := by
          have h1 : 1 ≤ q / prime := Nat.one_le_iff_ne_zero.mpr hq0
          calc p * prime ≤ p * prime * (q / prime) :=
                Nat.le_mul_of_pos_right _ h1
            _ ≤ p * q := hbound
            _ < W := hW
        rw [if_pos hodd, if_pos hodd, Nat.mod_eq_of_lt hpprime]
        exact ih (q / prime) (p * prime)
          (Nat.lt_succ_iff.mp (lt_of_lt_of_le hlt hq))
          (lt_of_le_of_lt hbound hW)
      · rw [if_neg hodd, if_neg hodd]
        exact ih (q / prime) p
          (Nat.lt_succ_iff.mp (lt_of_lt_of_le hlt hq))
          (lt_of_le_of_lt (Nat.mul_le_mul_left p (Nat.le_of_lt hlt)) hW)

/-- The shared shape of the three band loops of src/examples/build.rs:
each prime contributes the factor `g prime`; factors above 1 are
multiplied into the product via `checked_mul` (`?` propagating `None`),
factors equal to 1 are skipped. -/
def checked_band_loop (max : ℕ) (g : ℕ → ℕ) : List ℕ → ℕ → Option ℕ
  | [], product => some product
  | x :: rest, product =>
    if 1 < g x then
      if product * g x ≤ max then
        checked_band_loop max g rest (product * g x)
      else none
    else checked_band_loop max g rest product

theorem one_le_listProd {g : ℕ → ℕ} :
    ∀ {l : List ℕ}, (∀ x ∈ l, 1 ≤ g x) → 1 ≤ (l.map g).prod := by
  intro l
  induction l with
  | nil => intro _; exact Nat.le_refl 1
  | cons x rest ih =>
    intro h
    rw [List.map_cons, List.prod_cons]
    calc 1 = 1 * 1 := rfl
      _ ≤ g x * (rest.map g).prod :=
        Nat.mul_le_mul (h x (by simp)) (ih fun y hy => h y (by simp [hy]))

theorem checked_band_loop_eq {max : ℕ} {g : ℕ → ℕ} :
    ∀ l product, (∀ x ∈ l, 1 ≤ g x) → 1 ≤ product → product ≤ max →
      checked_band_loop max g l product =
        if product * (l.map g).prod ≤ max
        then some (product * (l.map g).prod) else none := by
  intro l
  induction l with
  | nil =>
    intro product _ _ hpm
    rw [checked_band_loop, List.map_nil, List.prod_nil, Nat.mul_one,
      if_pos hpm]
  | cons x rest ih =>
    intro product h hp1 hpm
    have hx : 1 ≤ g x := h x (by simp)
    have hrest : ∀ y ∈ rest, 1 ≤ g y := fun y hy => h y (by simp [hy])
    have hRpos : 1 ≤ (rest.map g).prod := one_le_listProd hrest
    rw [checked_band_loop, List.map_cons, List.prod_cons]
    by_cases h1 : 1 < g x
    · rw [if_pos h1]
      by_cases h2 : product * g x ≤ max
      · rw [if_pos h2, ih _ hrest (Nat.mul_pos (by omega) (by omega)) h2,
          Nat.mul_assoc]
      · rw [if_neg h2]
        have : product * g x ≤ product * (g x * (rest.map g).prod) := by
          rw [← Nat.mul_assoc]
          exact Nat.le_mul_of_pos_right _ (by omega)
        rw [if_neg (by omega)]
    · have hone : g x = 1 := by omega
      rw [if_neg h1, ih _ hrest hp1 hpm, hone, Nat.one_mul]

/-- Rust `prime_swing` from src/examples/build.rs at `u128`: the table below
33; otherwise the three bands, with every product multiplication checked
against `u128::MAX` and the small-band accumulator wrapping modulo
`2^128` (`?` propagation modelled with `Option.bind`). -/
def prime_swing_banded_checked (n : ℕ) : Option ℕ :=
  if n < 33 then some (SMALL_SWING.getD n 0)
  else
    (checked_band_loop U128_MAX (fun prime => prime)
        (primeRange (n / 2 + 1) n) 1).bind fun product1 =>
      (checked_band_loop U128_MAX
          (fun prime => if n / prime % 2 = 1 then prime else 1)
          (primeRange (Nat.sqrt n + 1) (n / 3)) product1).bind fun product2 =>
        checked_band_loop U128_MAX
          (fun prime => swing_loopB_wrap U128_MOD prime n 1)
          (primeRange 3 (Nat.sqrt n)) product2

/-- Characterisation of the `u128` banded evaluator: for every `u128`
input it returns the table value below 33 and otherwise the exact odd
swing value when that fits in `u128`, and `None` otherwise — the
unchecked accumulator never wraps and no partial result is ever
returned. -/
theorem prime_swing_banded_checked_eq {n : ℕ} (hn : n ≤ U128_MAX) :
    prime_swing_banded_checked n =
      if n < 33 then some (SMALL_SWING.getD n 0)
      else if prime_swing_banded_nat n ≤ U128_MAX
        then some (prime_swing_banded_nat n) else none := by
  by_cases h33 : n < 33
  · rw [prime_swing_banded_checked, if_pos h33, if_pos h33]
  · have hA1 : ∀ x ∈ primeRange (n / 2 + 1) n, 1 ≤ (fun prime => prime) x :=
      fun x hx => by
        have := (mem_primeRange hx).1.two_le
        dsimp only
        omega
    have hB1 : ∀ x ∈ primeRange (Nat.sqrt n + 1) (n / 3),
        1 ≤ (fun prime => if n / prime % 2 = 1 then prime else 1) x :=
      fun x hx => by
        have := (mem_primeRange hx).1.two_le
        dsimp only
        split
        · omega
        · exact Nat.le_refl 1
    have hwrapC : ∀ x ∈ primeRange 3 (Nat.sqrt n),
        swing_loopB_wrap U128_MOD x n 1 = swing_loopB x n 1 := fun x hx => by
      have h2 := (mem_primeRange hx).1.two_le
      apply swing_loopB_wrap_eq h2 n n 1 (Nat.le_refl n)
      rw [Nat.one_mul]
      have hlt : U128_MAX < U128_MOD := by decide
      omega
    have hvalC : ∀ x ∈ primeRange 3 (Nat.sqrt n),
        swing_loopB x n 1 = x ^ oddCount x n := fun x hx => by
      have h2 := (mem_primeRange hx).1.two_le
      rw [swing_loopB_eq h2 n n 1 (Nat.le_refl n), Nat.one_mul]
    have hC1 : ∀ x ∈ primeRange 3 (Nat.sqrt n),
        1 ≤ (fun prime => swing_loopB_wrap U128_MOD prime n 1) x :=
      fun x hx => by
        have h2 := (mem_primeRange hx).1.two_le
        dsimp only
        rw [hwrapC x hx, hvalC x hx]
        exact Nat.one_le_pow _ _ (by omega)
    have hCw : ((primeRange 3 (Nat.sqrt n)).map
          (fun prime => swing_loopB_wrap U128_MOD prime n 1)).prod =
        ((primeRange 3 (Nat.sqrt n)).map
          (fun x => if 1 < swing_loopB x n 1
            then swing_loopB x n 1 else 1)).prod := by
      apply congrArg List.prod
      apply List.map_congr_left
      intro x hx
      dsimp only
      rw [hwrapC x hx]
      by_cases h1 : 1 < swing_loopB x n 1
      · rw [if_pos h1]
      · have hle : 1 ≤ swing_loopB x n 1 := by
          rw [hvalC x hx]
          have h2 := (mem_primeRange hx).1.two_le
          exact Nat.one_le_pow _ _ (by omega)
        have heq : swing_loopB x n 1 = 1 := by omega
        rw [if_neg h1, heq]
    have hnat : prime_swing_banded_nat n =
        1 * ((primeRange (n / 2 + 1) n).map (fun x => x)).prod *
          ((primeRange (Nat.sqrt n + 1) (n / 3)).map
            (fun x => if n / x % 2 = 1 then x else 1)).prod *
          ((primeRange 3 (Nat.sqrt n)).map
            (fun x => if 1 < swing_loopB x n 1
              then swing_loopB x n 1 else 1)).prod := by
      rw [prime_swing_banded_nat, if_neg h33]
      rw [foldl_mul_body _
        (fun x => if 1 < swing_loopB x n 1 then swing_loopB x n 1 else 1)
        (by
          intro a x
          dsimp only
          by_cases h : 1 < swing_loopB x n 1
          · rw [if_pos h, if_pos h]
          · rw [if_neg h, if_neg h, Nat.mul_one])]
      rw [foldl_mul_body _ (fun x => if n / x % 2 = 1 then x else 1)
        (by
          intro a x
          dsimp only
          by_cases h : n / x % 2 = 1
          · rw [if_pos h, if_pos h]
          · rw [if_neg h, if_neg h, Nat.mul_one])]
      rw [foldl_mul_body _ (fun x => x) (fun a x => rfl)]
    have hBpos : 1 ≤ ((primeRange (Nat.sqrt n + 1) (n / 3)).map
        (fun x => if n / x % 2 = 1 then x else 1)).prod :=
      one_le_listProd hB1
    have hCpos : 1 ≤ ((primeRange 3 (Nat.sqrt n)).map
        (fun x => if 1 < swing_loopB x n 1
          then swing_loopB x n 1 else 1)).prod := by
      apply one_le_listProd
      intro x hx
      dsimp only
      by_cases h1 : 1 < swing_loopB x n 1
      · rw [if_pos h1]
        omega
      · rw [if_neg h1]
    have hApos : 1 ≤ ((primeRange (n / 2 + 1) n).map (fun x => x)).prod :=
      one_le_listProd hA1
    rw [prime_swing_banded_checked, if_neg h33, if_neg h33]
    rw [checked_band_loop_eq _ 1 hA1 (Nat.le_refl 1) (by decide)]
    by_cases hA : 1 * ((primeRange (n / 2 + 1) n).map (fun x => x)).prod ≤
        U128_MAX
    · rw [if_pos hA, Option.some_bind]
      rw [checked_band_loop_eq _ _ hB1
        (Nat.mul_pos Nat.one_pos hApos) hA]
      by_cases hB : 1 * ((primeRange (n / 2 + 1) n).map (fun x => x)).prod *
          ((primeRange (Nat.sqrt n + 1) (n / 3)).map
            (fun x => if n / x % 2 = 1 then x else 1)).prod ≤ U128_MAX
      · rw [if_pos hB, Option.some_bind]
        rw [checked_band_loop_eq _ _ hC1
          (Nat.mul_pos (Nat.mul_pos Nat.one_pos hApos) hBpos) hB, hCw,
          ← hnat]
      · rw [if_neg hB, Option.none_bind]
        rw [if_neg (by
          rw [hnat]
          have hstep : 1 * ((primeRange (n / 2 + 1) n).map
              (fun x => x)).prod *
              ((primeRange (Nat.sqrt n + 1) (n / 3)).map
                (fun x => if n / x % 2 = 1 then x else 1)).prod ≤
              1 * ((primeRange (n / 2 + 1) n).map (fun x => x)).prod *
              ((primeRange (Nat.sqrt n + 1) (n / 3)).map
                (fun x => if n / x % 2 = 1 then x else 1)).prod *
              ((primeRange 3 (Nat.sqrt n)).map
                (fun x => if 1 < swing_loopB x n 1
                  then swing_loopB x n 1 else 1)).prod :=
            Nat.le_mul_of_pos_right _ (by omega)
          exact fun hT => hB (le_trans hstep hT))]
    · rw [if_neg hA, Option.none_bind]
      rw [if_neg (by
        rw [hnat]
        have hstep : 1 * ((primeRange (n / 2 + 1) n).map
            (fun x => x)).prod ≤
            1 * ((primeRange (n / 2 + 1) n).map (fun x => x)).prod *
            ((primeRange (Nat.sqrt n + 1) (n / 3)).map
              (fun x => if n / x % 2 = 1 then x else 1)).prod *
            ((primeRange 3 (Nat.sqrt n)).map
              (fun x => if 1 < swing_loopB x n 1
                then swing_loopB x n 1 else 1)).prod := by
          calc 1 * ((primeRange (n / 2 + 1) n).map (fun x => x)).prod ≤
              1 * ((primeRange (n / 2 + 1) n).map (fun x => x)).prod *
              ((primeRange (Nat.sqrt n + 1) (n / 3)).map
                (fun x => if n / x % 2 = 1 then x else 1)).prod :=
              Nat.le_mul_of_pos_right _ (by omega)
            _ ≤ _ := Nat.le_mul_of_pos_right _ (by omega)
        exact fun hT => hA (le_trans hstep hT))]

/-- C5: overflow handling of the swing evaluation.  The single-range
evaluator of src/build.rs (every multiplication `checked_mul`) returns the
exact swing value when it fits the operand type and `None` otherwise; the
banded evaluator of src/examples/build.rs — whose small-band accumulator
multiplication `p *= prime` is syntactically unchecked but provably never
wraps, being bounded by `n` — likewise returns its exact value when it
fits `u128` and `None` otherwise: overflow is detected at the failing
multiplication, nothing wraps silently, and no partial result is ever
returned. -/
theorem swing_evaluation_overflow_checked :
    (∀ max n, 1 ≤ max →
      prime_swing max n =
        if prime_swing_nat n ≤ max then some (prime_swing_nat n) else none) ∧
    (∀ n, n ≤ U128_MAX →
      prime_swing_banded_checked n =
        if n < 33 then some (SMALL_SWING.getD n 0)
        else if prime_swing_banded_nat n ≤ U128_MAX
          then some (prime_swing_banded_nat n) else none) :=
  ⟨prime_swing_eq, fun _ hn => prime_swing_banded_checked_eq hn⟩

set_option maxRecDepth 100000 in
set_option maxHeartbeats 2000000 in
/-- Witness for C5: the single-range evaluator at `n = 10` in `u32`
(value `252 = 10!/(5!)²`), its overflow at `n = 100` in `u32`, and the
banded evaluator at `n = 40`. -/
theorem swing_evaluation_overflow_checked_witness :
    prime_swing 4294967295 10 = some 252 ∧
    prime_swing 4294967295 100 = none ∧
    prime_swing_banded_checked 40 = some 34461632205 := by
  have h10 := swing_evaluation_overflow_checked.1 4294967295 10 (by decide)
  have h100 := swing_evaluation_overflow_checked.1 4294967295 100 (by decide)
  have h40 := swing_evaluation_overflow_checked.2 40 (by decide)
  have hv10 : prime_swing_nat 10 = 252 := by
    rw [prime_swing_nat_eq_swingProd, ← swingProdF_eq sievePrimesBelow_two_le]
    decide
  have hv100 : 4294967295 < prime_swing_nat 100 := by
    rw [prime_swing_nat_eq_swingProd, ← swingProdF_eq sievePrimesBelow_two_le]
    decide
  have hv40 : prime_swing_banded_nat 40 = 34461632205 := by
    rw [prime_swing_banded_nat_eq (by decide), oddSwing,
      ← swingProdF_eq primeRange_two_le]
    decide
  refine ⟨?_, ?_, ?_⟩
  · rw [h10, hv10, if_pos (by decide)]
  · rw [h100, if_neg (by omega)]
  · rw [h40, if_neg (by decide), hv40, if_pos (by decide)]

theorem mem_sievePrimesUpTo {n pr : ℕ} (h : pr ∈ sievePrimesUpTo n) :
    pr.Prime ∧ pr ≤ n := by
  rw [sievePrimesUpTo, List.mem_filter, List.mem_range] at h
  exact ⟨(isPrime_iff pr).mp h.2, by omega⟩

/-- Enumerating the primes `≤ n` from a sieve covering `[2, B]`, `B ≥ n`,
yields exactly the primes `≤ n`. -/
theorem sievePrimesUpTo_filter_le {n B : ℕ} (h : n ≤ B) :
    (sievePrimesUpTo B).filter (fun p => decide (p ≤ n)) =
      sievePrimesUpTo n := by
  induction B, h using Nat.le_induction with
  | base =>
    apply List.filter_eq_self.mpr
    intro a ha
    have := (mem_sievePrimesUpTo ha).2
    simpa
  | succ B hB ihB =>
    rw [sievePrimesUpTo, List.range_succ, List.filter_append,
      List.filter_append, ← sievePrimesUpTo]
    rw [ihB]
    have hemp : (List.filter isPrime [B + 1]).filter
        (fun p => decide (p ≤ n)) = [] := by
      apply List.filter_eq_nil_iff.mpr
      intro a ha
      have : a ∈ [B + 1] := List.mem_of_mem_filter ha
      simp only [List.mem_singleton] at this
      subst this
      simp
      omega
    rw [hemp, List.append_nil]

/-- Modelled from the spec: the checked swing evaluation of
`checked_factorial_with_sieve` — absent from src/ — multiplying the
glossary factors `p ^ oddCount p n` over the sieve primes with checked
multiplication, `None` propagating outward on overflow. -/
def checked_swing_with_sieve_loop (max n : ℕ) : List ℕ → ℕ → Option ℕ
  | [], product => some product
  | prime :: rest, product =>
    if product * prime ^ oddCount prime n ≤ max then
      checked_swing_with_sieve_loop max n rest
        (product * prime ^ oddCount prime n)
    else none

/-- Modelled from the spec: `Swing(n)` evaluated against a caller-supplied
sieve covering `[2, B]` (the caller must guarantee `n ≤ B`). -/
def checked_swing_with_sieve (B max n : ℕ) : Option ℕ :=
  checked_swing_with_sieve_loop max n
    ((sievePrimesUpTo B).filter fun p => decide (p ≤ n)) 1

/-- Modelled from the spec: `checked_factorial_with_sieve(n, sieve)` is
not present under src/ (this revision of the crate ships only the
iterative loops); per the spec it forces the recursive swing path
`factorial(n) = factorial(⌊n/2⌋)² · swing(n)` against the caller-supplied
sieve, with the identity base case `factorial(0) = factorial(1) = 1` and
every multiplication checked. -/
def checked_factorial_with_sieve (B max n : ℕ) : Option ℕ :=
  if n ≤ 1 then some 1
  else
    (checked_factorial_with_sieve B max (n / 2)).bind fun f =>
      if f * f ≤ max then
        (checked_swing_with_sieve B max n).bind fun s =>
          if f * f * s ≤ max then some (f * f * s) else none
      else none
termination_by n
decreasing_by omega

theorem checked_swing_with_sieve_loop_eq {max n : ℕ} :
    ∀ l product, (∀ pr ∈ l, 2 ≤ pr) → 1 ≤ product → product ≤ max →
      checked_swing_with_sieve_loop max n l product =
        if product * swingProd n l ≤ max
        then some (product * swingProd n l) else none := by
  intro l
  induction l with
  | nil =>
    intro product _ _ hpm
    rw [checked_swing_with_sieve_loop, swingProd_nil, Nat.mul_one,
      if_pos hpm]
  | cons pr rest ih =>
    intro product h hp1 hpm
    have hpr : 2 ≤ pr := h pr (by simp)
    have hrest : ∀ x ∈ rest, 2 ≤ x := fun x hx => h x (by simp [hx])
    have hF : 1 ≤ pr ^ oddCount pr n := Nat.one_le_pow _ _ (by omega)
    have hR : 1 ≤ swingProd n rest := swingProd_pos hrest
    rw [checked_swing_with_sieve_loop, swingProd_cons]
    by_cases h2 : product * pr ^ oddCount pr n ≤ max
    · rw [if_pos h2, ih _ hrest (Nat.mul_pos (by omega) (by omega)) h2,
        Nat.mul_assoc]
    · rw [if_neg h2]
      have hstep : product * pr ^ oddCount pr n ≤
          product * (pr ^ oddCount pr n * swingProd n rest) := by
        rw [← Nat.mul_assoc]
        exact Nat.le_mul_of_pos_right _ (by omega)
      rw [if_neg (by omega)]

theorem swingProd_upTo (n : ℕ) :
    swingProd n (sievePrimesUpTo n) = fullSwing n := by
  rw [swingProd, sievePrimesUpTo, fullSwing]
  exact filter_range_map_prod _ isPrime Nat.Prime isPrime_iff (n + 1)

theorem checked_swing_with_sieve_eq {B max n : ℕ} (hB : n ≤ B)
    (hmax : 1 ≤ max) :
    checked_swing_with_sieve B max n =
      if fullSwing n ≤ max then some (fullSwing n) else none := by
  rw [checked_swing_with_sieve, sievePrimesUpTo_filter_le hB,
    checked_swing_with_sieve_loop_eq _ 1
      (fun pr hpr => (mem_sievePrimesUpTo hpr).1.two_le)
      (Nat.le_refl 1) hmax,
    Nat.one_mul, swingProd_upTo]

theorem fullSwing_pos (n : ℕ) : 0 < fullSwing n :=
  Nat.pos_of_ne_zero (fullSwing_ne_zero n)

/-- The spec-modelled recursive engine computes the checked factorial:
`Some n!` exactly when `n!` fits, else `None`. -/
theorem checked_factorial_with_sieve_eq :
    ∀ n B max, n ≤ B → 1 ≤ max →
      checked_factorial_with_sieve B max n =
        if n.factorial ≤ max then some n.factorial else none := by
  intro n
  induction n using Nat.strong_induction_on with
  | _ n ih =>
    intro B max hB hmax
    by_cases h1 : n ≤ 1
    · rw [checked_factorial_with_sieve, if_pos h1]
      have hfact : n.factorial = 1 := by
        match n, h1 with
        | 0, _ => rfl
        | 1, _ => rfl
      rw [hfact, if_pos hmax]
    · rw [checked_factorial_with_sieve, if_neg h1]
      have hrec := ih (n / 2) (by omega) B max (by omega) hmax
      have hswing := @checked_swing_with_sieve_eq B max n hB hmax
      have hid : n.factorial =
          (n / 2).factorial * (n / 2).factorial * fullSwing n := by
        have h := factorial_eq_half_sq_mul_fullSwing n
        rw [pow_two] at h
        exact h
      have hfpos : 0 < (n / 2).factorial := Nat.factorial_pos _
      have hspos : 0 < fullSwing n := fullSwing_pos n
      by_cases hf : n.factorial ≤ max
      · have hhalf : (n / 2).factorial ≤ max :=
          le_trans (Nat.factorial_le (by omega)) hf
        rw [hrec, if_pos hhalf, Option.some_bind]
        have hff : (n / 2).factorial * (n / 2).factorial ≤ max := by
          have : (n / 2).factorial * (n / 2).factorial ≤ n.factorial := by
            rw [hid]
            exact Nat.le_mul_of_pos_right _ hspos
          omega
        rw [if_pos hff, hswing]
        have hsw : fullSwing n ≤ max := by
          have : fullSwing n ≤ n.factorial := by
            rw [hid]
            exact Nat.le_mul_of_pos_left _ (Nat.mul_pos hfpos hfpos)
          omega
        rw [if_pos hsw, Option.some_bind, if_pos (by rw [← hid]; exact hf),
          ← hid, if_pos hf]
      · rw [if_neg hf]
        by_cases hhalf : (n / 2).factorial ≤ max
        · rw [hrec, if_pos hhalf, Option.some_bind]
          by_cases hff : (n / 2).factorial * (n / 2).factorial ≤ max
          · rw [if_pos hff, hswing]
            by_cases hsw : fullSwing n ≤ max
            · rw [if_pos hsw, Option.some_bind,
                if_neg (by rw [← hid]; exact hf)]
            · rw [if_neg hsw, Option.none_bind]
          · rw [if_neg hff]
        · rw [hrec, if_neg hhalf, Option.none_bind]

/-- C6: for every `n` and every sieve covering at least `[2, n]`,
`checked_factorial_with_sieve(n, sieve)` (the spec's forced recursive
swing path) returns the same result as `checked_factorial(n)` — including
every `n` smaller than both lookup tables. -/
theorem checked_factorial_with_sieve_agrees (B max n : ℕ) (hB : n ≤ B)
    (hmax : 1 ≤ max) :
    checked_factorial_with_sieve B max n = checked_factorial max n := by
  rw [checked_factorial_with_sieve_eq n B max hB hmax,
    checked_factorial_eq max n hmax]

/-- Witness for C6 at `n = 8` (below both tables), sieve bound `B = 20`,
`u32` operand. -/
theorem checked_factorial_with_sieve_agrees_witness :
    checked_factorial_with_sieve 20 4294967295 8 =
      checked_factorial 4294967295 8 ∧
    checked_factorial_with_sieve 20 4294967295 8 = some 40320 := by
  have h := checked_factorial_with_sieve_agrees 20 4294967295 8 (by decide)
    (by decide)
  refine ⟨h, ?_⟩
  rw [h, checked_factorial_eq 4294967295 8 (by decide), if_pos (by decide)]
  rfl
